import Mathlib

/-
Verification development for the pleep audio-fingerprint toolkit.

Shallow embedding conventions:
  - byte streams are `List ℕ` (each entry one byte);
  - Rust `u32` values are `ℕ` with explicit `% 2 ^ 32` where the code casts;
  - `f32` values on the wire are modelled by their 32-bit patterns (`ℕ`),
    since the codec only moves their bytes (`to_le_bytes` / `from_le_bytes`);
  - fallible or panicking code returns `Option`.
-/

namespace PleepFile

/-- Little-endian byte encoding of a `u32`, as in `u32::to_le_bytes`.
Encodes `n % 2^32` when `n` overflows, matching an `as u32` cast. -/
def u32ToLe (n : ℕ) : List ℕ :=
  [n % 256, n / 256 % 256, n / 256 ^ 2 % 256, n / 256 ^ 3 % 256]

/-- Little-endian byte decoding of a `u32`, as in `u32::from_le_bytes`. -/
def u32FromLe (b0 b1 b2 b3 : ℕ) : ℕ :=
  b0 + 256 * b1 + 256 ^ 2 * b2 + 256 ^ 3 * b3

/-- The seven build parameters stored at the head of an index file
(`pleep-build/src/file.rs`, `struct BuildSettings`). -/
structure BuildSettings where
  fft_size : ℕ
  fft_overlap : ℕ
  spectrogram_height : ℕ
  spectrogram_max_frequency : ℕ
  resample_rate : ℕ
  resample_chunk_size : ℕ
  resample_sub_chunks : ℕ
deriving DecidableEq

/-- One index entry (`pleep-build/src/file.rs`, `struct Segment`). The `title`
is the UTF-8 byte sequence of the Rust `String`; each vector entry is the
32-bit pattern of an `f32`. -/
structure Segment where
  title : List ℕ
  vectors : List (List ℕ)
deriving DecidableEq

/-- A whole index file (`pleep-build/src/file.rs`, `struct File`). -/
structure File where
  build_settings : BuildSettings
  segments : List Segment
deriving DecidableEq

/-- Byte output of `BuildSettings::write_to`: the seven fields as
little-endian `u32`, in declaration order. -/
def BuildSettings.write_to (s : BuildSettings) : List ℕ :=
  u32ToLe s.fft_size ++ u32ToLe s.fft_overlap ++ u32ToLe s.spectrogram_height ++
    u32ToLe s.spectrogram_max_frequency ++ u32ToLe s.resample_rate ++
    u32ToLe s.resample_chunk_size ++ u32ToLe s.resample_sub_chunks

/-- Byte output of `Segment::write_to`: title length (`as u32`), raw title
bytes, vector count (`as u32`), then every value of every vector as
`f32::to_le_bytes`. -/
def Segment.write_to (seg : Segment) : List ℕ :=
  u32ToLe seg.title.length ++ seg.title ++ u32ToLe seg.vectors.length ++
    (seg.vectors.map fun v => (v.map u32ToLe).flatten).flatten

/-- Byte output of `File::write_to`: settings, segment count (`as u32`),
then each segment in order. -/
def File.write_to (f : File) : List ℕ :=
  f.build_settings.write_to ++ u32ToLe f.segments.length ++
    (f.segments.map Segment.write_to).flatten

/-- Reading four bytes as a `u32`, as in the `read_exact` + `from_le_bytes`
pattern of `file.rs`; fails (`Err`) when fewer than four bytes remain. -/
def readU32 : List ℕ → Option (ℕ × List ℕ)
  | b0 :: b1 :: b2 :: b3 :: rest => some (u32FromLe b0 b1 b2 b3, rest)
  | _ => none

/-- Reading `n` raw bytes, as in `read_exact` into a `vec![0; n]`;
fails when fewer than `n` bytes remain. -/
def readBytes (n : ℕ) (l : List ℕ) : Option (List ℕ × List ℕ) :=
  if n ≤ l.length then some (l.take n, l.drop n) else none

/-- The inner loop of `Segment::read_from`: read `len` consecutive `f32`
values (four bytes each). -/
def readVector : ℕ → List ℕ → Option (List ℕ × List ℕ)
  | 0, l => some ([], l)
  | n + 1, l =>
    (readU32 l).bind fun p =>
    (readVector n p.2).bind fun q =>
    some (p.1 :: q.1, q.2)

/-- The outer loop of `Segment::read_from`: read `count` vectors of
`len` values each. -/
def readVectors : ℕ → ℕ → List ℕ → Option (List (List ℕ) × List ℕ)
  | 0, _, l => some ([], l)
  | n + 1, len, l =>
    (readVector len l).bind fun p =>
    (readVectors n len p.2).bind fun q =>
    some (p.1 :: q.1, q.2)

/-- Model of `Segment::read_from`. The `String::from_utf8` validation is
elided: on a round-trip the bytes come from `String::as_bytes`, where the
check always succeeds, and the model treats the title at byte level. -/
def Segment.read_from (vector_length : ℕ) (l : List ℕ) : Option (Segment × List ℕ) :=
  (readU32 l).bind fun tl =>
  (readBytes tl.1 tl.2).bind fun title =>
  (readU32 title.2).bind fun nv =>
  (readVectors nv.1 vector_length nv.2).bind fun vectors =>
  some (⟨title.1, vectors.1⟩, vectors.2)

/-- Model of `BuildSettings::read_from`: seven consecutive `u32` reads. -/
def BuildSettings.read_from (l : List ℕ) : Option (BuildSettings × List ℕ) :=
  (readU32 l).bind fun a1 =>
  (readU32 a1.2).bind fun a2 =>
  (readU32 a2.2).bind fun a3 =>
  (readU32 a3.2).bind fun a4 =>
  (readU32 a4.2).bind fun a5 =>
  (readU32 a5.2).bind fun a6 =>
  (readU32 a6.2).bind fun a7 =>
  some (⟨a1.1, a2.1, a3.1, a4.1, a5.1, a6.1, a7.1⟩, a7.2)

/-- The segment loop of `File::read_from`: read `n` segments, each with
vectors of length `height` (the stored `spectrogram_height`). -/
def readSegments : ℕ → ℕ → List ℕ → Option (List Segment × List ℕ)
  | 0, _, l => some ([], l)
  | n + 1, height, l =>
    (Segment.read_from height l).bind fun p =>
    (readSegments n height p.2).bind fun q =>
    some (p.1 :: q.1, q.2)

/-- Model of `File::read_from`. -/
def File.read_from (l : List ℕ) : Option (File × List ℕ) :=
  (BuildSettings.read_from l).bind fun s =>
  (readU32 s.2).bind fun n =>
  (readSegments n.1 s.1.spectrogram_height n.2).bind fun segs =>
  some (⟨s.1, segs.1⟩, segs.2)

/-- Validity of a file, as assumed by the round-trip claim: every vector has
length `spectrogram_height`, every count and length fits in a `u32` (in Rust
the settings fields and `f32` bit patterns are 32-bit by type). -/
def File.Valid (f : File) : Prop :=
  f.segments.length < 2 ^ 32 ∧
  f.build_settings.fft_size < 2 ^ 32 ∧
  f.build_settings.fft_overlap < 2 ^ 32 ∧
  f.build_settings.spectrogram_height < 2 ^ 32 ∧
  f.build_settings.spectrogram_max_frequency < 2 ^ 32 ∧
  f.build_settings.resample_rate < 2 ^ 32 ∧
  f.build_settings.resample_chunk_size < 2 ^ 32 ∧
  f.build_settings.resample_sub_chunks < 2 ^ 32 ∧
  ∀ seg ∈ f.segments,
    seg.title.length < 2 ^ 32 ∧
    seg.vectors.length < 2 ^ 32 ∧
    ∀ v ∈ seg.vectors,
      v.length = f.build_settings.spectrogram_height ∧ ∀ x ∈ v, x < 2 ^ 32

instance (f : File) : Decidable f.Valid := by
  unfold File.Valid
  infer_instance

theorem u32_round (n : ℕ) (hn : n < 2 ^ 32) (rest : List ℕ) :
    readU32 (u32ToLe n ++ rest) = some (n, rest) := by
  simp only [u32ToLe, List.cons_append, List.nil_append, readU32, u32FromLe]
  congr 1
  congr 1
  omega

theorem readBytes_round (l rest : List ℕ) :
    readBytes l.length (l ++ rest) = some (l, rest) := by
  simp [readBytes]

theorem readVector_round (v rest : List ℕ) (hv : ∀ x ∈ v, x < 2 ^ 32) :
    readVector v.length ((v.map u32ToLe).flatten ++ rest) = some (v, rest) := by
  induction v generalizing rest with
  | nil => simp [readVector]
  | cons x xs ih =>
    simp only [List.map_cons, List.flatten_cons, List.length_cons, List.append_assoc]
    rw [readVector, u32_round x (hv x (by simp)), Option.some_bind]
    rw [ih rest fun y hy => hv y (by simp [hy]), Option.some_bind]

theorem readVectors_round (vs : List (List ℕ)) (len : ℕ) (rest : List ℕ)
    (hlen : ∀ v ∈ vs, v.length = len) (hval : ∀ v ∈ vs, ∀ x ∈ v, x < 2 ^ 32) :
    readVectors vs.length len ((vs.map fun v => (v.map u32ToLe).flatten).flatten ++ rest) =
      some (vs, rest) := by
  induction vs generalizing rest with
  | nil => simp [readVectors]
  | cons v vs ih =>
    simp only [List.map_cons, List.flatten_cons, List.length_cons, List.append_assoc]
    rw [readVectors]
    have h1 := readVector_round v ((vs.map fun w => (w.map u32ToLe).flatten).flatten ++ rest)
      (hval v (by simp))
    rw [hlen v (by simp)] at h1
    rw [h1, Option.some_bind]
    rw [ih rest (fun w hw => hlen w (by simp [hw])) (fun w hw => hval w (by simp [hw]))]
    rw [Option.some_bind]

theorem segment_round (seg : Segment) (height : ℕ) (rest : List ℕ)
    (htitle : seg.title.length < 2 ^ 32) (hcount : seg.vectors.length < 2 ^ 32)
    (hlen : ∀ v ∈ seg.vectors, v.length = height)
    (hval : ∀ v ∈ seg.vectors, ∀ x ∈ v, x < 2 ^ 32) :
    Segment.read_from height (seg.write_to ++ rest) = some (seg, rest) := by
  unfold Segment.write_to Segment.read_from
  simp only [List.append_assoc]
  rw [u32_round seg.title.length htitle, Option.some_bind]
  rw [readBytes_round, Option.some_bind]
  rw [u32_round seg.vectors.length hcount, Option.some_bind]
  have h1 := readVectors_round seg.vectors height rest
    (fun v hv2 => hlen v hv2) (fun v hv2 => hval v hv2)
  rw [h1, Option.some_bind]

theorem settings_round (s : BuildSettings) (rest : List ℕ)
    (h1 : s.fft_size < 2 ^ 32) (h2 : s.fft_overlap < 2 ^ 32)
    (h3 : s.spectrogram_height < 2 ^ 32) (h4 : s.spectrogram_max_frequency < 2 ^ 32)
    (h5 : s.resample_rate < 2 ^ 32) (h6 : s.resample_chunk_size < 2 ^ 32)
    (h7 : s.resample_sub_chunks < 2 ^ 32) :
    BuildSettings.read_from (s.write_to ++ rest) = some (s, rest) := by
  unfold BuildSettings.write_to BuildSettings.read_from
  simp only [List.append_assoc]
  rw [u32_round _ h1, Option.some_bind]
  rw [u32_round _ h2, Option.some_bind]
  rw [u32_round _ h3, Option.some_bind]
  rw [u32_round _ h4, Option.some_bind]
  rw [u32_round _ h5, Option.some_bind]
  rw [u32_round _ h6, Option.some_bind]
  rw [u32_round _ h7, Option.some_bind]

theorem segments_round (segs : List Segment) (height : ℕ) (rest : List ℕ)
    (hseg : ∀ seg ∈ segs,
      seg.title.length < 2 ^ 32 ∧ seg.vectors.length < 2 ^ 32 ∧
      ∀ v ∈ seg.vectors, v.length = height ∧ ∀ x ∈ v, x < 2 ^ 32) :
    readSegments segs.length height ((segs.map Segment.write_to).flatten ++ rest) =
      some (segs, rest) := by
  induction segs generalizing rest with
  | nil => simp [readSegments]
  | cons seg segs ih =>
    simp only [List.map_cons, List.flatten_cons, List.length_cons, List.append_assoc]
    rw [readSegments]
    obtain ⟨ht, hc, hv⟩ := hseg seg (by simp)
    rw [segment_round seg height _ ht hc (fun v hv2 => (hv v hv2).1) (fun v hv2 => (hv v hv2).2)]
    rw [Option.some_bind]
    rw [ih rest fun s hs => hseg s (by simp [hs])]
    rw [Option.some_bind]

theorem file_round (f : File) (rest : List ℕ) (hf : f.Valid) :
    File.read_from (f.write_to ++ rest) = some (f, rest) := by
  obtain ⟨hn, h1, h2, h3, h4, h5, h6, h7, hsegs⟩ := hf
  unfold File.write_to File.read_from
  simp only [List.append_assoc]
  rw [settings_round f.build_settings _ h1 h2 h3 h4 h5 h6 h7]
  rw [Option.some_bind]
  rw [u32_round f.segments.length hn, Option.some_bind]
  rw [segments_round f.segments f.build_settings.spectrogram_height rest hsegs]
  rw [Option.some_bind]

/-- A small concrete index file used by witnesses. -/
def sampleFile : File :=
  { build_settings :=
      { fft_size := 2048, fft_overlap := 512, spectrogram_height := 2,
        spectrogram_max_frequency := 12000, resample_rate := 24000,
        resample_chunk_size := 1024, resample_sub_chunks := 3 }
    segments :=
      [ { title := [97, 98], vectors := [[5, 4294967295], [0, 7]] },
        { title := [99], vectors := [] } ] }

end PleepFile

/-- C3: writing a valid `File` with `File::write_to` and reading the bytes
back with `File::read_from` yields the same file: all seven `BuildSettings`
fields, the segment order, every title's bytes and every `f32` bit pattern
are preserved. -/
theorem C3_file_roundtrip (f : PleepFile.File) (hf : f.Valid) :
    PleepFile.File.read_from f.write_to = some (f, []) := by
  have h := PleepFile.file_round f [] hf
  simpa using h

/-- Witness for C3 at a concrete two-segment file. -/
theorem C3_file_roundtrip_witness :
    PleepFile.File.read_from PleepFile.sampleFile.write_to = some (PleepFile.sampleFile, []) :=
  C3_file_roundtrip PleepFile.sampleFile (by decide)

namespace PleepSearch

/-
Model of `pleep-search/src/main.rs`. Scalar samples and spectrogram values
are taken in a linear ordered field (the theorems use `ℚ`); `f32::INFINITY`
is modelled by the top element of `WithTop`.
-/

/-- Sequencing of a panicking/failing computation over a list: `none` as soon
as one element fails, otherwise the list of results. -/
def optionMapM {α β : Type} (f : α → Option β) : List α → Option (List β)
  | [] => some []
  | x :: xs => (f x).bind fun b => (optionMapM f xs).bind fun bs => some (b :: bs)

/-- Model of `distance_sq`: sum of squared pairwise differences over the
zip of the two columns. -/
def distance_sq {F : Type} [LinearOrderedField F] (l1 l2 : List F) : F :=
  ((l1.zip l2).map fun p => (p.1 - p.2) ^ 2).sum

/-- Contiguous windows of length `size` of a list, as produced by the Rust
slice method `windows(size)` for `size ≥ 1`: there are `len − size + 1`
windows, none when `size > len`. -/
def listWindows {α : Type} (l : List α) (size : ℕ) : List (List α) :=
  (List.range (l.length + 1 - size)).map fun o => (l.drop o).take size

/-- The zero column used for padding in `get_error`: the length is taken
from the first spectrogram column (`spectrogram[0].len()`). -/
def paddedSpectrogram {F : Type} [LinearOrderedField F] (spectrogram : List (List F))
    (padding : ℕ) (c0 : List F) : List (List F) :=
  List.replicate padding (List.replicate c0.length (0 : F)) ++ spectrogram ++
    List.replicate padding (List.replicate c0.length (0 : F))

/-- Mean, over the columns of window `w`, of the squared distances to the
columns of `seg` (the body of the window loop in `get_error`). -/
def windowError {F : Type} [LinearOrderedField F] (seg : List (List F)) (w : List (List F)) : F :=
  ((w.zip seg).map fun q => distance_sq q.1 q.2).sum / (seg.length : F)

/-- The score the window loop of `get_error` assigns to one segment:
`f32::INFINITY` folded with `min` over every window error. -/
def segmentScore {F : Type} [LinearOrderedField F] (padded : List (List F))
    (seg : List (List F)) : WithTop F :=
  ((listWindows padded seg.length).map fun w => windowError seg w).foldl
    (fun (acc : WithTop F) (e : F) => min acc (e : WithTop F)) ⊤

/-- Model of `get_error` from the padding step on (`main.rs:283-325`), given
the already-collected log spectrogram of one query slice. Returns `none`
where the Rust code panics: on `spectrogram[0]` when the spectrogram is
empty, and on `windows(0)` when a considered segment has no vectors. -/
def getErrorScores {F : Type} [LinearOrderedField F] (spectrogram : List (List F))
    (padding : ℕ) (skip_less_than : ℕ) (max_error : F)
    (segments : List (List (List F))) : Option (List (ℕ × WithTop F)) :=
  match spectrogram with
  | [] => none
  | c0 :: rest =>
    let padded := paddedSpectrogram (c0 :: rest) padding c0
    let filtered := (segments.enum.filter fun p => p.2.length ≤ padded.length).filter
      fun p => skip_less_than ≤ p.2.length
    (optionMapM (fun p =>
      if p.2.length = 0 then none
      else some (p.1, segmentScore padded p.2)) filtered).map
      fun scored => scored.filter fun q => ¬ ((max_error : WithTop F) < q.2)

/-- One merge update of the error table (`errors[index] = errors[index].min(mse)`).
The Rust indexing would panic out of bounds; the theorems only use in-bounds
indices, where `List.set` agrees with it. -/
def mergeStep {F : Type} [LinearOrderedField F] (errors : List (WithTop F))
    (p : ℕ × WithTop F) : List (WithTop F) :=
  errors.set p.1 (min (errors.getD p.1 ⊤) p.2)

/-- Model of the merge loop of `main`: a table of `f32::INFINITY` per
segment, min-merged with every `(index, mse)` pair of every task result. -/
def mergeErrors {F : Type} [LinearOrderedField F] (nseg : ℕ)
    (tasks : List (List (ℕ × WithTop F))) : List (WithTop F) :=
  tasks.foldl (fun errors task => task.foldl mergeStep errors) (List.replicate nseg ⊤)

/-- Model of the ranking tail of `main`: keep finite entries, sort by error
ascending, report the first `n_results`. -/
def searchReport {F : Type} [LinearOrderedField F] (n_results nseg : ℕ)
    (tasks : List (List (ℕ × WithTop F))) : List (ℕ × WithTop F) :=
  let best := (mergeErrors nseg tasks).enum.filter fun p => ¬ p.2 = ⊤
  (best.mergeSort fun a b => decide (a.2 ≤ b.2)).take n_results

/-- Model of the offset computation of `main` (`main.rs:60-92`). Rust `usize`
division panics on a zero divisor, so a zero `extra_offsets` (or a zero
`resample_rate`) yields `none`. -/
def computeOffsets (sample_rate fft_size resample_rate extra_offsets : ℕ) : Option (List ℕ) :=
  if resample_rate = 0 ∨ extra_offsets = 0 then none
  else some ((List.range (extra_offsets + 1)).map fun k =>
    k * sample_rate * fft_size / resample_rate / extra_offsets)

/-- Model of the slice construction `samples[offset..]`, which panics when
the offset exceeds the sample count. -/
def computeSlices {F : Type} [LinearOrderedField F] (samples : List F)
    (sample_rate fft_size resample_rate extra_offsets : ℕ) :
    Option (List (ℕ × List F)) :=
  (computeOffsets sample_rate fft_size resample_rate extra_offsets).bind fun offs =>
  optionMapM (fun off =>
    if off ≤ samples.length then some (off, samples.drop off) else none) offs

theorem optionMapM_isSome {α β : Type} (f : α → Option β) (l : List α) :
    (optionMapM f l).isSome = true ↔ ∀ a ∈ l, (f a).isSome := by
  induction l with
  | nil => simp [optionMapM]
  | cons x xs ih =>
    simp only [optionMapM]
    constructor
    · intro h
      intro a ha
      match hx : f x with
      | none => rw [hx] at h; simp at h
      | some b =>
        rw [hx] at h
        simp only [Option.some_bind] at h
        rcases List.mem_cons.mp ha with rfl | ha2
        · simp [hx]
        · match hxs : optionMapM f xs with
          | none => rw [hxs] at h; simp at h
          | some bs => exact ih.mp (by rw [hxs]; rfl) a ha2
    · intro h
      have hx : (f x).isSome := h x (by simp)
      match hfx : f x with
      | none => rw [hfx] at hx; simp at hx
      | some b =>
        have hxs : (optionMapM f xs).isSome := ih.mpr fun a ha => h a (by simp [ha])
        match hmxs : optionMapM f xs with
        | none => rw [hmxs] at hxs; simp at hxs
        | some bs => simp [hfx, hmxs]

end PleepSearch

/-- C10: the offset computation of the search main is total exactly under
the precondition that `extra_offsets` is at least one and every computed
offset `(k * sample_rate * fft_size / resample_rate) / extra_offsets`
(for `k` in `[0, extra_offsets]`) is at most the query length: with
`extra_offsets = 0` the `usize` division panics, and a slice
`samples[offset..]` with `offset` beyond the sample count panics. -/
theorem C10_offset_totality (samples : List ℚ) (sr fft rr eo : ℕ)
    (hrr : rr ≠ 0) (heo : eo ≠ 0) :
    PleepSearch.computeSlices samples sr fft rr 0 = none ∧
    ((PleepSearch.computeSlices samples sr fft rr eo).isSome = true ↔
      ∀ k ≤ eo, k * sr * fft / rr / eo ≤ samples.length) := by
  constructor
  · simp [PleepSearch.computeSlices, PleepSearch.computeOffsets]
  · rw [PleepSearch.computeSlices, PleepSearch.computeOffsets]
    simp only [hrr, heo, or_self, if_false, if_neg, Option.some_bind]
    rw [PleepSearch.optionMapM_isSome]
    constructor
    · intro h k hk
      have hmem : k * sr * fft / rr / eo ∈ (List.range (eo + 1)).map
          fun k => k * sr * fft / rr / eo :=
        List.mem_map.mpr ⟨k, List.mem_range.mpr (by omega), rfl⟩
      have := h _ hmem
      by_contra hlt
      rw [if_neg hlt] at this
      simp at this
    · intro h off hoff
      obtain ⟨k, hk, rfl⟩ := List.mem_map.mp hoff
      rw [if_pos (h k (by exact Nat.lt_succ_iff.mp (List.mem_range.mp hk)))]
      rfl

/-- Witness for C10 at a concrete query of two samples. -/
theorem C10_offset_totality_witness :
    PleepSearch.computeSlices ([0, 0] : List ℚ) 1 2 2 0 = none ∧
    (PleepSearch.computeSlices ([0, 0] : List ℚ) 1 2 2 1).isSome = true := by
  have h := C10_offset_totality ([0, 0] : List ℚ) 1 2 2 1 (by decide) (by decide)
  exact ⟨h.1, h.2.mpr (by decide)⟩

namespace PleepSearch

theorem optionMapM_eq_map {α β : Type} (f : α → Option β) (g : α → β) (l : List α)
    (h : ∀ a ∈ l, f a = some (g a)) : optionMapM f l = some (l.map g) := by
  induction l with
  | nil => simp [optionMapM]
  | cons x xs ih =>
    rw [optionMapM, h x (by simp), Option.some_bind, ih fun a ha => h a (by simp [ha]),
      Option.some_bind, List.map_cons]

theorem foldl_min_acc {F : Type} [LinearOrderedField F] (l : List F) (acc : WithTop F) :
    l.foldl (fun (a : WithTop F) (e : F) => min a (e : WithTop F)) acc =
      min acc (l.foldl (fun (a : WithTop F) (e : F) => min a (e : WithTop F)) ⊤) := by
  induction l generalizing acc with
  | nil => simp
  | cons x xs ih =>
    rw [List.foldl_cons, List.foldl_cons, ih (min acc x), ih (min ⊤ x)]
    simp [min_assoc]

theorem foldl_min_le {F : Type} [LinearOrderedField F] (l : List F) (x : F) (hx : x ∈ l) :
    l.foldl (fun (a : WithTop F) (e : F) => min a (e : WithTop F)) ⊤ ≤ (x : WithTop F) := by
  induction l with
  | nil => simp at hx
  | cons y ys ih =>
    rw [List.foldl_cons, foldl_min_acc]
    rcases List.mem_cons.mp hx with rfl | hx2
    · exact le_trans (min_le_left _ _) (by simp)
    · exact le_trans (min_le_right _ _) (ih hx2)

theorem foldl_min_attained {F : Type} [LinearOrderedField F] (l : List F) (hl : l ≠ []) :
    ∃ x ∈ l, l.foldl (fun (a : WithTop F) (e : F) => min a (e : WithTop F)) ⊤ = (x : WithTop F) := by
  induction l with
  | nil => exact absurd rfl hl
  | cons y ys ih =>
    rw [List.foldl_cons, foldl_min_acc]
    rcases eq_or_ne ys [] with rfl | hys
    · exact ⟨y, by simp, by simp⟩
    · obtain ⟨x, hx, hfold⟩ := ih hys
      rcases le_total (min ⊤ (y : WithTop F)) (ys.foldl (fun (a : WithTop F) (e : F) => min a (e : WithTop F)) ⊤)
        with hle | hle
      · refine ⟨y, by simp, ?_⟩
        rw [min_eq_left hle]
        simp
      · exact ⟨x, by simp [hx], by rw [min_eq_right hle, hfold]⟩

theorem paddedSpectrogram_length {F : Type} [LinearOrderedField F]
    (spectrogram : List (List F)) (padding : ℕ) (c0 : List F) :
    (paddedSpectrogram spectrogram padding c0).length = spectrogram.length + 2 * padding := by
  simp [paddedSpectrogram]
  omega

theorem listWindows_ne_nil {α : Type} (l : List α) (size : ℕ) (h : size ≤ l.length) :
    listWindows l size ≠ [] := by
  simp only [listWindows, ne_eq, List.map_eq_nil_iff, List.range_eq_nil]
  omega

end PleepSearch

namespace PleepSearch

theorem getErrorScores_eq {F : Type} [LinearOrderedField F] (c0 : List F)
    (rest : List (List F)) (padding skip : ℕ) (maxE : F)
    (segments : List (List (List F))) (hskip : 1 ≤ skip) :
    getErrorScores (c0 :: rest) padding skip maxE segments =
      some ((((segments.enum.filter fun p =>
        p.2.length ≤ (paddedSpectrogram (c0 :: rest) padding c0).length).filter
          fun p => skip ≤ p.2.length).map fun p =>
            (p.1, segmentScore (paddedSpectrogram (c0 :: rest) padding c0) p.2)).filter
              fun q => ¬ ((maxE : WithTop F) < q.2)) := by
  have hmap := optionMapM_eq_map
    (fun p : ℕ × List (List F) => if p.2.length = 0 then none
      else some (p.1, segmentScore (paddedSpectrogram (c0 :: rest) padding c0) p.2))
    (fun p => (p.1, segmentScore (paddedSpectrogram (c0 :: rest) padding c0) p.2))
    ((segments.enum.filter fun p =>
      p.2.length ≤ (paddedSpectrogram (c0 :: rest) padding c0).length).filter
        fun p => skip ≤ p.2.length)
    (by
      intro p hp
      have h2 := (List.mem_filter.mp hp).2
      rw [decide_eq_true_eq] at h2
      simp only
      rw [if_neg (by omega)])
  simp only [getErrorScores]
  simp only [paddedSpectrogram] at hmap ⊢
  rw [hmap]
  rfl

end PleepSearch

/-- C6 (amended): in each search task with `min_vectors ≥ 1` and a nonempty
query spectrogram, exactly those segments of the trim set whose vector count
lies in `[min_vectors, padded-spectrogram length]` and whose minimal windowed
mean squared error does not exceed `max_error` are recorded, each with that
minimal error as its score; and that score is the minimum, over every
contiguous window of `segment.len()` columns of the padded spectrogram, of
the mean over the window's columns of the summed squared per-entry
differences. With `min_vectors = 0` an empty segment reaches `windows(0)`,
which panics, so no segment is scored at all (see the counterexample). -/
theorem C6_windowed_mse_scoring (spectrogram : List (List ℚ)) (padding skip_less_than : ℕ)
    (max_error : ℚ) (segments : List (List (List ℚ)))
    (hmv : 1 ≤ skip_less_than) (hsp : spectrogram ≠ []) :
    ∃ scores,
      PleepSearch.getErrorScores spectrogram padding skip_less_than max_error segments
        = some scores ∧
      (∀ i e, (i, e) ∈ scores ↔ ∃ seg, segments[i]? = some seg ∧
        skip_less_than ≤ seg.length ∧ seg.length ≤ spectrogram.length + 2 * padding ∧
        e = PleepSearch.segmentScore
          (PleepSearch.paddedSpectrogram spectrogram padding spectrogram.headI) seg ∧
        e ≤ (max_error : WithTop ℚ)) ∧
      (∀ seg : List (List ℚ), seg.length ≤ spectrogram.length + 2 * padding →
        (∃ w ∈ PleepSearch.listWindows
            (PleepSearch.paddedSpectrogram spectrogram padding spectrogram.headI) seg.length,
          PleepSearch.segmentScore
            (PleepSearch.paddedSpectrogram spectrogram padding spectrogram.headI) seg
            = ((PleepSearch.windowError seg w : ℚ) : WithTop ℚ)) ∧
        ∀ w ∈ PleepSearch.listWindows
            (PleepSearch.paddedSpectrogram spectrogram padding spectrogram.headI) seg.length,
          PleepSearch.segmentScore
            (PleepSearch.paddedSpectrogram spectrogram padding spectrogram.headI) seg
            ≤ ((PleepSearch.windowError seg w : ℚ) : WithTop ℚ)) := by
  obtain ⟨c0, rest, rfl⟩ : ∃ c0 rest, spectrogram = c0 :: rest := by
    cases spectrogram with
    | nil => exact absurd rfl hsp
    | cons a l => exact ⟨a, l, rfl⟩
  have hhead : (c0 :: rest).headI = c0 := rfl
  have hplen : (PleepSearch.paddedSpectrogram (c0 :: rest) padding c0).length
      = (c0 :: rest).length + 2 * padding :=
    PleepSearch.paddedSpectrogram_length _ _ _
  refine ⟨_, PleepSearch.getErrorScores_eq c0 rest padding skip_less_than max_error segments hmv,
    ?_, ?_⟩
  · intro i e
    rw [hhead]
    simp only [List.mem_filter, List.mem_map, List.mem_filter, decide_eq_true_eq,
      List.mem_enum_iff_getElem?, not_lt]
    constructor
    · rintro ⟨⟨p, ⟨⟨hp1, hp2⟩, hp3⟩, heq⟩, hle⟩
      obtain ⟨rfl, rfl⟩ : p.1 = i ∧ (p.1, PleepSearch.segmentScore
          (PleepSearch.paddedSpectrogram (c0 :: rest) padding c0) p.2).2 = e := by
        constructor
        · exact congrArg Prod.fst heq
        · rw [heq]
      exact ⟨p.2, hp1, hp3, by rw [← hplen]; exact hp2, rfl, hle⟩
    · rintro ⟨seg, hget, hskip2, hlen2, rfl, hle⟩
      exact ⟨⟨(i, seg), ⟨⟨hget, by rw [hplen]; exact hlen2⟩, hskip2⟩, rfl⟩, hle⟩
  · intro seg hlen2
    rw [hhead]
    have hwne : PleepSearch.listWindows
        (PleepSearch.paddedSpectrogram (c0 :: rest) padding c0) seg.length ≠ [] :=
      PleepSearch.listWindows_ne_nil _ _ (by rw [hplen]; exact hlen2)
    have hmapne : (PleepSearch.listWindows
        (PleepSearch.paddedSpectrogram (c0 :: rest) padding c0) seg.length).map
          (fun w => PleepSearch.windowError seg w) ≠ [] := by
      simpa using hwne
    constructor
    · obtain ⟨x, hx, hfold⟩ := PleepSearch.foldl_min_attained _ hmapne
      obtain ⟨w, hw, rfl⟩ := List.mem_map.mp hx
      exact ⟨w, hw, hfold⟩
    · intro w hw
      exact PleepSearch.foldl_min_le _ _ (List.mem_map.mpr ⟨w, hw, rfl⟩)

/-- Counterexample to C6 as stated: with `min_vectors = 0`, an empty segment
lies in the closed interval `[0, padded length]`, yet nothing at all is
scored, because the Rust code reaches `spectrogram.windows(0)`, which
panics. -/
theorem C6_counterexample :
    PleepSearch.getErrorScores ([[0]] : List (List ℚ)) 0 0 10 [[]] = none := by
  rfl

/-- Witness for C6 at a one-column spectrogram and a one-vector segment. -/
theorem C6_windowed_mse_scoring_witness :
    (PleepSearch.getErrorScores ([[0]] : List (List ℚ)) 0 1 10 [[[0]]]).isSome = true := by
  obtain ⟨scores, hs, -, -⟩ := C6_windowed_mse_scoring [[0]] 0 1 10 [[[0]]]
    (by decide) (by decide)
  rw [hs]
  rfl

namespace PleepSearch

theorem mergeStep_comm {F : Type} [LinearOrderedField F] (e : List (WithTop F))
    (p q : ℕ × WithTop F) : mergeStep (mergeStep e p) q = mergeStep (mergeStep e q) p := by
  obtain ⟨i, a⟩ := p
  obtain ⟨j, b⟩ := q
  unfold mergeStep
  simp only
  by_cases hij : i = j
  · subst hij
    by_cases hi : i < e.length
    · rw [List.set_set, List.set_set]
      have hgd : ∀ c : WithTop F, (e.set i c).getD i ⊤ = c := by
        intro c
        rw [List.getD_eq_getElem?_getD, List.getElem?_set_self (by simpa using hi)]
        rfl
      rw [hgd, hgd]
      rw [min_right_comm]
    · have hle : e.length ≤ i := by omega
      simp only [List.set_eq_of_length_le hle]
  · have h1 : (e.set i (min (e.getD i ⊤) a)).getD j ⊤ = e.getD j ⊤ := by
      rw [List.getD_eq_getElem?_getD, List.getElem?_set_ne hij, ← List.getD_eq_getElem?_getD]
    have h2 : (e.set j (min (e.getD j ⊤) b)).getD i ⊤ = e.getD i ⊤ := by
      rw [List.getD_eq_getElem?_getD, List.getElem?_set_ne (Ne.symm hij),
        ← List.getD_eq_getElem?_getD]
    rw [h1, h2, List.set_comm _ _ _ hij]

theorem foldl_mergeStep_getD {F : Type} [LinearOrderedField F]
    (pairs : List (ℕ × WithTop F)) (errors : List (WithTop F)) (i : ℕ)
    (hi : i < errors.length) :
    (pairs.foldl mergeStep errors).getD i ⊤ =
      min (errors.getD i ⊤) (((pairs.filter fun p => p.1 = i).map Prod.snd).foldr min ⊤) := by
  induction pairs generalizing errors with
  | nil => simp
  | cons p ps ih =>
    obtain ⟨j, b⟩ := p
    rw [List.foldl_cons]
    have hlen : (mergeStep errors (j, b)).length = errors.length := by
      simp [mergeStep]
    rw [ih (mergeStep errors (j, b)) (by omega)]
    by_cases hj : j = i
    · subst hj
      have hstep : (mergeStep errors (j, b)).getD j ⊤ = min (errors.getD j ⊤) b := by
        unfold mergeStep
        simp only
        rw [List.getD_eq_getElem?_getD, List.getElem?_set_self (by simpa using hi)]
        simp [List.getD_eq_getElem?_getD]
      rw [hstep]
      simp only [List.filter_cons, decide_eq_true_eq, eq_self_iff_true, if_true,
        List.map_cons, List.foldr_cons]
      rw [min_assoc]
    · have hstep : (mergeStep errors (j, b)).getD i ⊤ = errors.getD i ⊤ := by
        unfold mergeStep
        simp only
        rw [List.getD_eq_getElem?_getD, List.getElem?_set_ne hj, List.getD_eq_getElem?_getD]
      rw [hstep]
      simp only [List.filter_cons, decide_eq_true_eq, if_neg hj]

theorem mergeErrors_eq_flatten {F : Type} [LinearOrderedField F] (nseg : ℕ)
    (tasks : List (List (ℕ × WithTop F))) :
    mergeErrors nseg tasks = tasks.flatten.foldl mergeStep (List.replicate nseg ⊤) := by
  rw [mergeErrors, List.foldl_flatten]

theorem mergeErrors_perm {F : Type} [LinearOrderedField F] (nseg : ℕ)
    (tasks tasks2 : List (List (ℕ × WithTop F))) (hperm : tasks.Perm tasks2) :
    mergeErrors nseg tasks = mergeErrors nseg tasks2 := by
  rw [mergeErrors_eq_flatten, mergeErrors_eq_flatten]
  exact (hperm.flatten).foldl_eq' (fun x _ y _ z => mergeStep_comm z x y) _

end PleepSearch

/-- C7: the final per-segment error is the minimum of that segment's recorded
errors across all tasks (starting from `f32::INFINITY`); the report keeps
exactly the finite entries of the merged table, sorted by error ascending,
truncated to the first `n_results`; and permuting the order in which task
results arrive yields an identical report. Recorded indices are assumed in
range, as `get_error` guarantees (a Rust out-of-range index would panic the
merge loop). -/
theorem C7_min_merge_ranking (n nseg : ℕ) (tasks tasks2 : List (List (ℕ × WithTop ℚ)))
    (hperm : tasks.Perm tasks2) :
    (∀ i, i < nseg → (PleepSearch.mergeErrors nseg tasks).getD i ⊤ =
      ((tasks.flatten.filter fun p => p.1 = i).map Prod.snd).foldr min ⊤) ∧
    (∃ l : List (ℕ × WithTop ℚ),
      l.Perm ((PleepSearch.mergeErrors nseg tasks).enum.filter fun p => ¬ p.2 = ⊤) ∧
      l.Pairwise (fun a b => a.2 ≤ b.2) ∧
      PleepSearch.searchReport n nseg tasks = l.take n) ∧
    PleepSearch.searchReport n nseg tasks = PleepSearch.searchReport n nseg tasks2 := by
  refine ⟨?_, ?_, ?_⟩
  · intro i hi
    rw [PleepSearch.mergeErrors_eq_flatten,
      PleepSearch.foldl_mergeStep_getD _ _ _ (by simpa using hi)]
    simp
  · have hsorted := @List.sorted_mergeSort (ℕ × WithTop ℚ)
      (fun a b => decide (a.2 ≤ b.2))
      (fun a b c hab hbc => by
        rw [decide_eq_true_eq] at *
        exact le_trans hab hbc)
      (fun a b => by
        rw [Bool.or_eq_true, decide_eq_true_eq, decide_eq_true_eq]
        exact le_total a.2 b.2)
      ((PleepSearch.mergeErrors nseg tasks).enum.filter fun p => ¬ p.2 = ⊤)
    exact ⟨((PleepSearch.mergeErrors nseg tasks).enum.filter fun p => ¬ p.2 = ⊤).mergeSort
      (fun a b => decide (a.2 ≤ b.2)), List.mergeSort_perm _ _,
      hsorted.imp fun h => by simpa using h, by rfl⟩
  · have hmerge := PleepSearch.mergeErrors_perm nseg tasks tasks2 hperm
    simp only [PleepSearch.searchReport, hmerge]

/-- Witness for C7 with two concrete task results arriving in both orders. -/
theorem C7_min_merge_ranking_witness :
    PleepSearch.searchReport 1 2 [[((0 : ℕ), (3 : WithTop ℚ))], [(0, 2), (1, 5)]] =
      PleepSearch.searchReport 1 2 [[((0 : ℕ), (2 : WithTop ℚ)), (1, 5)], [(0, 3)]] :=
  (C7_min_merge_ranking 1 2 _ _ (by decide)).2.2

namespace PleepSpec

/-
Model of `pleep/src/spectrogram.rs`. Samples are real numbers (exact
semantics of the floating-point pipeline); the forward FFT is modelled by
the discrete Fourier transform it computes.
-/

/-- The iterator settings (`struct Settings`). -/
structure Settings where
  fft_len : ℕ
  fft_overlap : ℕ

/-- Model of `generate_hanning_window`:
`w[i] = 0.5 * (1 - cos(tau * i / size))`. -/
noncomputable def generate_hanning_window (size : ℕ) : List ℝ :=
  (List.range size).map fun (i : ℕ) =>
    (1 / 2 : ℝ) * (1 - Real.cos (2 * Real.pi * (i : ℝ) / (size : ℝ)))

/-- Model of `get_bin_for_frequency`: `(frequency * fft_len) / sample_rate`. -/
noncomputable def get_bin_for_frequency (frequency : ℝ) (sample_rate fft_len : ℕ) : ℝ :=
  frequency * (fft_len : ℝ) / (sample_rate : ℝ)

/-- The forward discrete Fourier transform computed by the planned FFT
(`rustfft` `plan_fft_forward` / `process_with_scratch`):
`y[k] = Σ_j x[j] · exp(−2πi·j·k/n)`. -/
noncomputable def dft (x : List ℂ) : List ℂ :=
  (List.range x.length).map fun (k : ℕ) =>
    ∑ j ∈ Finset.range x.length,
      x.getD j 0 * Complex.exp
        (-(2 * Real.pi * Complex.I * (j : ℂ) * (k : ℂ) / (x.length : ℂ)))

/-- Model of `Vec::resize(n, z)`: truncate to `n` or pad with `z` up to `n`. -/
def listResize {α : Type} (l : List α) (n : ℕ) (z : α) : List α :=
  l.take n ++ List.replicate (n - l.length) z

/-- Model of `SpectrogramIterator::generate_spectrogram_col`: multiply the
window of samples pointwise by the Hann window, apply the forward FFT, keep
the first `fft_len / 2` magnitudes, normalise by `sqrt(fft_len)`. -/
noncomputable def generate_spectrogram_col (settings : Settings) (samples : List ℝ) : List ℝ :=
  let hann := generate_hanning_window settings.fft_len
  let hanned : List ℝ := (samples.zip hann).map fun p => p.1 * p.2
  let transformed := dft (hanned.map fun (t : ℝ) => (t : ℂ))
  (transformed.take (settings.fft_len / 2)).map
    fun c => Complex.abs c / Real.sqrt (hann.length : ℝ)

/-- The sample-pulling loop at the head of `SpectrogramIterator::next`:
push one inner sample per iteration until the buffer holds at least
`fft_len` samples; at end of stream, return `None` if the buffer is empty,
else resize the buffer to `fft_len` with zeros. Returns the filled buffer
and the remaining inner stream. -/
def pullLoop (fft_len : ℕ) : List ℝ → List ℝ → Option (List ℝ × List ℝ)
  | buffer, [] => if buffer.isEmpty then none else some (listResize buffer fft_len 0, [])
  | buffer, s :: rest =>
    if fft_len ≤ buffer.length + 1 then some (buffer ++ [s], rest)
    else pullLoop fft_len (buffer ++ [s]) rest

/-- Model of `SpectrogramIterator::next` on state `(buffer, inner)`: pull
samples, take the first `fft_len` as the FFT input, then
`buffer.drain(..fft_len)` — the buffer advances by `fft_len`, whatever
`fft_overlap` is. Returns the emitted column with the successor state. -/
noncomputable def specNext (settings : Settings) (buffer inner : List ℝ) :
    Option (List ℝ × List ℝ × List ℝ) :=
  (pullLoop settings.fft_len buffer inner).map fun p =>
    (generate_spectrogram_col settings (p.1.take settings.fft_len),
      p.1.drop settings.fft_len, p.2)

end PleepSpec

/-- C1: the claim says the iterator advances its buffer by
`fft_len − fft_overlap` and retains the last `fft_overlap` samples. The code
drains `fft_len` samples instead: with `fft_len = 2`, `fft_overlap = 1` and
input `[1, 2, 3, 4]`, after the first column the buffer is empty (advanced
by 2, the hop would be 1 and should retain `[2]`), and `specNext` does not
depend on `fft_overlap` at all. This contradicts the documented intent of
the `fft_overlap` setting ("Amount of samples each fft will overlap with
the previous fft"), which the iterator never reads. -/
theorem C1_stride_ignores_overlap :
    (∃ col, PleepSpec.specNext ⟨2, 1⟩ [] [1, 2, 3, 4] = some (col, [], [3, 4])) ∧
    ∀ s : PleepSpec.Settings, ∀ buffer inner : List ℝ,
      PleepSpec.specNext s buffer inner =
        PleepSpec.specNext ⟨s.fft_len, 0⟩ buffer inner := by
  constructor
  · refine ⟨PleepSpec.generate_spectrogram_col ⟨2, 1⟩ [1, 2], ?_⟩
    simp [PleepSpec.specNext, PleepSpec.pullLoop]
  · intro s buffer inner
    obtain ⟨l, o⟩ := s
    rfl

namespace PleepBuild

/-
Model of `pleep-build/src/lib.rs`. The boundary arithmetic of `make_log`
is the exact real semantics of the `f64` computation
`((a.powf(frac) - 1.0) / (a - 1.0) * values.len() as f64) as usize` with
`a = 10.0`; at the concrete inputs used below the floor is far from the
nearest integer, so `f64` rounding cannot change it.
-/

/-- The boundary sequence of `make_log`: for `index ∈ [0, out_height]`,
`((10^(index / out_height) − 1) / (10 − 1) · len) as usize`. -/
noncomputable def logBoundary (len out_height index : ℕ) : ℕ :=
  ⌊((10 : ℝ) ^ ((index : ℝ) / (out_height : ℝ)) - 1) / (10 - 1) * (len : ℝ)⌋₊

/-- One slice maximum of `make_log`: Rust `&values[lo..hi]` panics unless
`lo ≤ hi ≤ len`, and `.max_by(...).unwrap()` panics on an empty slice. -/
def sliceMax {F : Type} [LinearOrderedField F] (values : List F) (lo hi : ℕ) : Option F :=
  if lo ≤ hi ∧ hi ≤ values.length then
    match (values.drop lo).take (hi - lo) with
    | [] => none
    | x :: xs => some (xs.foldl max x)
  else none

/-- Model of `make_log`: for every output index the maximum of the source
values over the half-open interval between successive boundaries, `none`
where the Rust code panics. -/
noncomputable def make_log {F : Type} [LinearOrderedField F] (values : List F)
    (out_height : ℕ) : Option (List F) :=
  PleepSearch.optionMapM
    (fun index => sliceMax values (logBoundary values.length out_height index)
      (logBoundary values.length out_height (index + 1)))
    (List.range out_height)

/-- The re-binning formula exactly as claim C2 states it: output `i` is the
source value at index `floor(ln(i+1) / ln(height) · cutoff_bin)` clamped to
`[0, cutoff_bin)` — a point sample through a precomputed `ln` table. This
definition follows the claim's words, to be compared with `make_log` above,
which follows the source. -/
noncomputable def make_log_spec {F : Type} [LinearOrderedField F] (values : List F)
    (height cutoff_bin : ℕ) : List F :=
  (List.range height).map fun (i : ℕ) =>
    values.getD (min (⌊Real.log ((i : ℝ) + 1) / Real.log (height : ℝ) *
      (cutoff_bin : ℝ)⌋₊) (cutoff_bin - 1)) 0

theorem foldl_max_le_seed {F : Type} [LinearOrderedField F] (x : F) (xs : List F) :
    x ≤ xs.foldl max x := by
  induction xs generalizing x with
  | nil => exact le_refl x
  | cons y ys ih => exact le_trans (le_max_left x y) (ih (max x y))

theorem foldl_max_mem {F : Type} [LinearOrderedField F] (x : F) (xs : List F) :
    xs.foldl max x ∈ x :: xs := by
  induction xs generalizing x with
  | nil => simp
  | cons y ys ih =>
    rcases List.mem_cons.mp (ih (max x y)) with h | h
    · rcases max_choice x y with hm | hm
      · rw [List.foldl_cons, h, hm]
        simp
      · rw [List.foldl_cons, h, hm]
        simp
    · rw [List.foldl_cons]
      exact List.mem_cons_of_mem _ (List.mem_cons_of_mem _ h)

theorem le_foldl_max {F : Type} [LinearOrderedField F] (x y : F) (xs : List F)
    (hy : y ∈ x :: xs) : y ≤ xs.foldl max x := by
  induction xs generalizing x with
  | nil =>
    rw [List.mem_singleton.mp hy]
    exact le_refl _
  | cons z zs ih =>
    rw [List.foldl_cons]
    rcases List.mem_cons.mp hy with rfl | h
    · exact le_trans (le_max_left y z) (foldl_max_le_seed _ zs)
    · rcases List.mem_cons.mp h with rfl | h2
      · exact le_trans (le_max_right x y) (foldl_max_le_seed _ zs)
      · exact ih (max x z) (List.mem_cons_of_mem _ h2)

theorem sliceMax_spec {F : Type} [LinearOrderedField F] (values : List F) (lo hi : ℕ)
    (h1 : lo < hi) (h2 : hi ≤ values.length) :
    ∃ m, sliceMax values lo hi = some m ∧
      (∃ j, lo ≤ j ∧ j < hi ∧ m = values.getD j 0) ∧
      ∀ j, lo ≤ j → j < hi → values.getD j 0 ≤ m := by
  have hslice : ((values.drop lo).take (hi - lo)).length = hi - lo := by
    simp only [List.length_take, List.length_drop]
    omega
  have hget : ∀ k, (hk : k < hi - lo) →
      ((values.drop lo).take (hi - lo)).getD k 0 = values.getD (lo + k) 0 := by
    intro k hk
    rw [List.getD_eq_getElem _ _ (by omega), List.getElem_take, List.getElem_drop,
      List.getD_eq_getElem _ _ (by omega)]
  match hs : (values.drop lo).take (hi - lo) with
  | [] =>
    rw [hs] at hslice
    simp at hslice
    omega
  | x :: xs =>
    refine ⟨xs.foldl max x, ?_, ?_, ?_⟩
    · rw [sliceMax, if_pos ⟨le_of_lt h1, h2⟩, hs]
    · have hmem := foldl_max_mem x xs
      rw [← hs] at hmem
      obtain ⟨k, hk, hkv⟩ := List.getElem_of_mem hmem
      rw [hslice] at hk
      refine ⟨lo + k, by omega, by omega, ?_⟩
      rw [← hget k hk, List.getD_eq_getElem _ _ (by rw [hslice]; omega), hkv]
    · intro j hj1 hj2
      have hk : j - lo < hi - lo := by omega
      have := hget (j - lo) hk
      rw [show lo + (j - lo) = j by omega] at this
      rw [← this, List.getD_eq_getElem _ _ (by rw [hslice]; omega)]
      apply le_foldl_max
      rw [← hs]
      exact List.getElem_mem _

end PleepBuild

namespace PleepBuild

theorem logBoundary_zero (len h : ℕ) : logBoundary len h 0 = 0 := by
  unfold logBoundary
  norm_num

theorem logBoundary_last (len h : ℕ) (hh : h ≠ 0) : logBoundary len h h = len := by
  unfold logBoundary
  rw [div_self (by exact_mod_cast hh), Real.rpow_one]
  norm_num

theorem logBoundary_mono (len h i j : ℕ) (hij : i ≤ j) :
    logBoundary len h i ≤ logBoundary len h j := by
  apply Nat.floor_le_floor
  have hexp : (i : ℝ) / (h : ℝ) ≤ (j : ℝ) / (h : ℝ) := by
    rcases Nat.eq_zero_or_pos h with rfl | hh
    · simp
    · have hc : (0 : ℝ) < h := by exact_mod_cast hh
      exact (div_le_div_iff_of_pos_right hc).mpr (by exact_mod_cast hij)
  have hpow := Real.rpow_le_rpow_of_exponent_le (by norm_num : (1 : ℝ) ≤ 10) hexp
  have h1 := (div_le_div_iff_of_pos_right (by norm_num : (0 : ℝ) < 10 - 1)).mpr (sub_le_sub_right hpow 1)
  exact mul_le_mul_of_nonneg_right h1 (by positivity)

theorem logBoundary_le_len (len h index : ℕ) (hidx : index ≤ h) :
    logBoundary len h index ≤ len := by
  rcases Nat.eq_zero_or_pos h with rfl | hh
  · have : index = 0 := by omega
    rw [this, logBoundary_zero]
    omega
  · calc logBoundary len h index ≤ logBoundary len h h := logBoundary_mono len h _ _ hidx
      _ = len := logBoundary_last len h (by omega)

end PleepBuild

namespace PleepBuild

theorem logBoundary_five_two_one : logBoundary 5 2 1 = 1 := by
  unfold logBoundary
  have hs : ((10 : ℝ)) ^ (((1 : ℕ) : ℝ) / ((2 : ℕ) : ℝ)) = Real.sqrt 10 := by
    rw [Real.sqrt_eq_rpow]
    norm_num
  rw [hs]
  have h0 : (0 : ℝ) ≤ 10 := by norm_num
  have hsq := Real.sq_sqrt h0
  have hnn := Real.sqrt_nonneg 10
  rw [Nat.floor_eq_iff (by nlinarith)]
  constructor
  · push_cast
    nlinarith
  · push_cast
    nlinarith

theorem logBoundary_five_two_two : logBoundary 5 2 2 = 5 := by
  have := logBoundary_last 5 2 (by norm_num)
  simpa using this

end PleepBuild

/-- C2 (amended): the log re-binner is an interval aggregate through an
exponential (base-10) boundary table, not a point sample through an `ln`
table: whenever every boundary interval is nonempty, `make_log` succeeds and
output entry `i` is the maximum of the source values over indices
`[b(i), b(i+1))`, where `b(j) = floor((10^(j/height) − 1) / 9 · len)`; when
some interval is empty, the Rust code panics on `.max_by(...).unwrap()`. -/
theorem C2_interval_max_rebin {F : Type} [LinearOrderedField F] (values : List F) (h : ℕ)
    (hne : ∀ i < h, PleepBuild.logBoundary values.length h i <
      PleepBuild.logBoundary values.length h (i + 1)) :
    ∃ out, PleepBuild.make_log values h = some out ∧ out.length = h ∧
      ∀ i, i < h →
        ((∃ j, PleepBuild.logBoundary values.length h i ≤ j ∧
          j < PleepBuild.logBoundary values.length h (i + 1) ∧
          out.getD i 0 = values.getD j 0) ∧
        ∀ j, PleepBuild.logBoundary values.length h i ≤ j →
          j < PleepBuild.logBoundary values.length h (i + 1) →
          values.getD j 0 ≤ out.getD i 0) := by
  have hsome : ∀ i ∈ List.range h,
      (fun index => PleepBuild.sliceMax values
        (PleepBuild.logBoundary values.length h index)
        (PleepBuild.logBoundary values.length h (index + 1))) i =
      some ((fun index => (PleepBuild.sliceMax values
        (PleepBuild.logBoundary values.length h index)
        (PleepBuild.logBoundary values.length h (index + 1))).getD 0) i) := by
    intro i hi
    have hi2 := List.mem_range.mp hi
    obtain ⟨m, hm, _, _⟩ := PleepBuild.sliceMax_spec values _ _ (hne i hi2)
      (PleepBuild.logBoundary_le_len values.length h (i + 1) (by omega))
    simp only
    rw [hm]
    rfl
  have hmap := PleepSearch.optionMapM_eq_map _ _ _ hsome
  refine ⟨_, by rw [PleepBuild.make_log]; exact hmap, by simp, ?_⟩
  intro i hi
  obtain ⟨m, hm, hex, hub⟩ := PleepBuild.sliceMax_spec values _ _ (hne i hi)
    (PleepBuild.logBoundary_le_len values.length h (i + 1) (by omega))
  have hout : ((List.range h).map fun index => (PleepBuild.sliceMax values
      (PleepBuild.logBoundary values.length h index)
      (PleepBuild.logBoundary values.length h (index + 1))).getD 0).getD i 0 = m := by
    rw [List.getD_eq_getElem _ _ (by simpa using hi), List.getElem_map, List.getElem_range, hm]
    rfl
  rw [hout]
  exact ⟨hex, hub⟩

/-- Counterexample to C2 as stated: on the column `[0, 0, 7, 0, 0]` with
`height = 2` and `cutoff_bin = 5`, the code (interval maximum over the
base-10 exponential boundaries) yields `[0, 7]`, while the claimed point
sample through the `ln` table yields `[0, 0]`. -/
theorem C2_counterexample :
    PleepBuild.make_log ([0, 0, 7, 0, 0] : List ℚ) 2 = some [0, 7] ∧
    PleepBuild.make_log_spec ([0, 0, 7, 0, 0] : List ℚ) 2 5 = [0, 0] := by
  constructor
  · rw [PleepBuild.make_log]
    rw [show ([0, 0, 7, 0, 0] : List ℚ).length = 5 from rfl]
    rw [show List.range 2 = [0, 1] from rfl]
    simp only [PleepSearch.optionMapM]
    rw [show (0 + 1 : ℕ) = 1 from rfl, show (1 + 1 : ℕ) = 2 from rfl,
      PleepBuild.logBoundary_zero, PleepBuild.logBoundary_five_two_one,
      PleepBuild.logBoundary_five_two_two]
    decide
  · have hlog2 : Real.log 2 ≠ 0 := ne_of_gt (Real.log_pos (by norm_num))
    have h0 : ⌊Real.log (((0 : ℕ) : ℝ) + 1) / Real.log ((2 : ℕ) : ℝ) * ((5 : ℕ) : ℝ)⌋₊ = 0 := by
      norm_num
    have h1 : ⌊Real.log (((1 : ℕ) : ℝ) + 1) / Real.log ((2 : ℕ) : ℝ) * ((5 : ℕ) : ℝ)⌋₊ = 5 := by
      norm_num [div_self hlog2]
    rw [PleepBuild.make_log_spec, show List.range 2 = [0, 1] from rfl]
    simp only [List.map_cons, List.map_nil, h0, h1]
    decide

/-- Witness for the amended C2 at height 1, where the boundary table is
rational: the single output entry is the maximum of the whole column. -/
theorem C2_interval_max_rebin_witness :
    (PleepBuild.make_log ([3, 5] : List ℚ) 1).isSome = true := by
  obtain ⟨out, hout, -, -⟩ := C2_interval_max_rebin ([3, 5] : List ℚ) 1 (by
    intro i hi
    have : i = 0 := by omega
    subst this
    rw [show ([3, 5] : List ℚ).length = 2 from rfl, PleepBuild.logBoundary_zero,
      show (0 + 1 : ℕ) = 1 from rfl, PleepBuild.logBoundary_last 2 1 (by norm_num)]
    norm_num)
  rw [hout]
  rfl

namespace PleepBuild

/-- The cutoff bin computed by `generate_log_spectrogram`:
`get_bin_for_frequency(frequency_cutoff, input_sample_rate, fft_len)`
followed by an `as usize` cast, which truncates toward zero. -/
noncomputable def cutoffBin (frequency_cutoff input_sample_rate fft_len : ℕ) : ℕ :=
  ⌊PleepSpec.get_bin_for_frequency (frequency_cutoff : ℝ) input_sample_rate fft_len⌋₊

/-- One column step of `LogSpectrogramIterator::next`:
`col.resize(cutoff_bin, 0)` then `make_log(&col, height)`. -/
noncomputable def logColumnStep (height cutoff_bin : ℕ) (col : List ℝ) : Option (List ℝ) :=
  make_log (PleepSpec.listResize col cutoff_bin 0) height

end PleepBuild

/-- C8 (amended): the log re-binner first resizes the column to
`cutoff_bin = truncate(max_frequency · fft_len / resample_rate)` entries —
the `as usize` cast truncates, it does not round — keeping the original
entries below the cutoff and padding with zeros above the original length. -/
theorem C8_truncated_cutoff (f r n : ℕ) (col : List ℝ) (c i : ℕ) (hi : i < c) :
    PleepBuild.cutoffBin f r n = f * n / r ∧
    (PleepSpec.listResize col c 0).length = c ∧
    (PleepSpec.listResize col c 0).getD i 0 =
      (if i < col.length then col.getD i 0 else 0) := by
  refine ⟨?_, ?_, ?_⟩
  · rw [PleepBuild.cutoffBin, PleepSpec.get_bin_for_frequency, ← Nat.cast_mul,
      Nat.floor_div_nat, Nat.floor_natCast]
  · simp only [PleepSpec.listResize, List.length_append, List.length_take,
      List.length_replicate]
    omega
  · rw [PleepSpec.listResize]
    by_cases hcol : i < col.length
    · rw [if_pos hcol]
      rw [List.getD_eq_getElem _ _ (by
        simp only [List.length_append, List.length_take, List.length_replicate]
        omega)]
      rw [List.getElem_append_left (by
        simp only [List.length_take]
        omega)]
      rw [List.getElem_take, List.getD_eq_getElem _ _ hcol]
    · rw [if_neg hcol]
      rw [List.getD_eq_getElem _ _ (by
        simp only [List.length_append, List.length_take, List.length_replicate]
        omega)]
      rw [List.getElem_append_right (by
        simp only [List.length_take]
        omega)]
      rw [List.getElem_replicate]

/-- Witness for C8 with a one-entry column resized to three entries. -/
theorem C8_truncated_cutoff_witness :
    PleepBuild.cutoffBin 1 4 2 = 1 * 2 / 4 ∧
    (PleepSpec.listResize ([5] : List ℝ) 3 0).length = 3 ∧
    (PleepSpec.listResize ([5] : List ℝ) 3 0).getD 2 0 =
      (if 2 < ([5] : List ℝ).length then ([5] : List ℝ).getD 2 0 else 0) :=
  C8_truncated_cutoff 1 4 2 [5] 3 2 (by decide)

/-- Counterexample to C8 as stated: with `max_frequency = 1`,
`resample_rate = 4` and `fft_len = 2`, the exact bin is `0.5`; the code's
`as usize` cast yields cutoff 0, while the claimed rounding yields 1. -/
theorem C8_counterexample :
    PleepBuild.cutoffBin 1 4 2 = 0 ∧
    round ((((1 : ℕ) * (2 : ℕ) : ℕ) : ℝ) / ((4 : ℕ) : ℝ)) = 1 := by
  constructor
  · rw [PleepBuild.cutoffBin, PleepSpec.get_bin_for_frequency, ← Nat.cast_mul,
      Nat.floor_div_nat, Nat.floor_natCast]
  · norm_num [round_eq]

namespace PleepSpec

theorem listResize_length {α : Type} (l : List α) (n : ℕ) (z : α) :
    (listResize l n z).length = n := by
  simp only [listResize, List.length_append, List.length_take, List.length_replicate]
  omega

theorem pullLoop_length (fft_len : ℕ) (inner : List ℝ) :
    ∀ buffer buf rest, buffer.length < fft_len →
      pullLoop fft_len buffer inner = some (buf, rest) → buf.length = fft_len := by
  induction inner with
  | nil =>
    intro buffer buf rest hb hp
    rw [pullLoop] at hp
    by_cases he : buffer.isEmpty
    · rw [if_pos he] at hp
      exact absurd hp (by simp)
    · rw [if_neg he] at hp
      obtain ⟨h1, h2⟩ := Prod.mk.injEq .. ▸ Option.some.injEq .. ▸ hp
      cases hp
      exact listResize_length buffer fft_len 0
  | cons s rest0 ih =>
    intro buffer buf rest hb hp
    rw [pullLoop] at hp
    by_cases hbreak : fft_len ≤ buffer.length + 1
    · rw [if_pos hbreak] at hp
      cases hp
      simp only [List.length_append, List.length_cons, List.length_nil]
      omega
    · rw [if_neg hbreak] at hp
      exact ih (buffer ++ [s]) buf rest (by simp; omega) hp

theorem pullLoop_measure (fft_len : ℕ) (inner : List ℝ) (hf : 1 ≤ fft_len) :
    ∀ buffer buf rest, pullLoop fft_len buffer inner = some (buf, rest) →
      buf.length - fft_len + rest.length < buffer.length + inner.length := by
  induction inner with
  | nil =>
    intro buffer buf rest hp
    rw [pullLoop] at hp
    by_cases he : buffer.isEmpty
    · rw [if_pos he] at hp
      exact absurd hp (by simp)
    · rw [if_neg he] at hp
      cases hp
      have h1 := listResize_length buffer fft_len (0 : ℝ)
      have h2 : buffer.length ≠ 0 := by
        intro h
        exact he (List.isEmpty_iff.mpr (List.length_eq_zero.mp h))
      simp only [h1, List.length_nil]
      omega
  | cons s rest0 ih =>
    intro buffer buf rest hp
    rw [pullLoop] at hp
    by_cases hbreak : fft_len ≤ buffer.length + 1
    · rw [if_pos hbreak] at hp
      cases hp
      simp only [List.length_append, List.length_cons, List.length_nil]
      omega
    · rw [if_neg hbreak] at hp
      have := ih (buffer ++ [s]) buf rest hp
      simp only [List.length_append, List.length_cons, List.length_nil] at this ⊢
      omega

theorem pullLoop_progress (fft_len : ℕ) (inner : List ℝ) :
    ∀ buffer, buffer ≠ [] ∨ inner ≠ [] →
      ∃ p, pullLoop fft_len buffer inner = some p := by
  induction inner with
  | nil =>
    intro buffer hne
    rcases hne with h | h
    · exact ⟨_, by rw [pullLoop, if_neg (by simpa using h)]⟩
    · exact absurd rfl h
  | cons s rest0 ih =>
    intro buffer hne
    rw [pullLoop]
    by_cases hbreak : fft_len ≤ buffer.length + 1
    · exact ⟨_, by rw [if_pos hbreak]⟩
    · rw [if_neg hbreak]
      exact ih (buffer ++ [s]) (Or.inl (by simp))

/-- The column stream of the spectrogram iterator: repeatedly apply
`SpectrogramIterator::next` until it returns `None`, collecting the emitted
columns. With `fft_len = 0` the Rust iterator never terminates (every
`next` emits); the model returns `[]` there, a case no claim exercises. -/
noncomputable def specList (s : Settings) (buffer inner : List ℝ) : List (List ℝ) :=
  if h0 : s.fft_len = 0 then []
  else
    match hp : pullLoop s.fft_len buffer inner with
    | none => []
    | some p =>
      generate_spectrogram_col s (p.1.take s.fft_len) ::
        specList s (p.1.drop s.fft_len) p.2
termination_by buffer.length + inner.length
decreasing_by
  simp only [List.length_drop]
  exact pullLoop_measure s.fft_len inner (by omega) buffer p.1 p.2 hp

end PleepSpec

namespace PleepSpec

theorem generate_hanning_window_length (size : ℕ) :
    (generate_hanning_window size).length = size := by
  simp [generate_hanning_window]

theorem dft_length (x : List ℂ) : (dft x).length = x.length := by
  simp [dft]

theorem generate_spectrogram_col_length (s : Settings) (samples : List ℝ)
    (hs : s.fft_len ≤ samples.length) :
    (generate_spectrogram_col s samples).length = s.fft_len / 2 := by
  unfold generate_spectrogram_col
  simp only [List.length_map, List.length_take, dft_length, List.length_zip,
    generate_hanning_window_length]
  omega

theorem specList_eq (s : Settings) (buffer inner : List ℝ) :
    specList s buffer inner = if s.fft_len = 0 then []
      else match pullLoop s.fft_len buffer inner with
        | none => []
        | some p =>
          generate_spectrogram_col s (p.1.take s.fft_len) ::
            specList s (p.1.drop s.fft_len) p.2 := by
  rw [specList]
  rcases Nat.eq_zero_or_pos s.fft_len with h0 | h0
  · simp [h0]
  · rw [dif_neg (by omega), if_neg (by omega)]
    rcases hpl : pullLoop s.fft_len buffer inner with _ | p <;> simp [hpl]

theorem specList_col_length (s : Settings) (hf : 1 ≤ s.fft_len) :
    ∀ n inner buffer, buffer.length + inner.length ≤ n → buffer.length < s.fft_len →
      ∀ col ∈ specList s buffer inner, col.length = s.fft_len / 2 := by
  intro n
  induction n with
  | zero =>
    intro inner buffer hn hb col hcol
    have hinner : inner = [] := by
      cases inner with
      | nil => rfl
      | cons a l =>
        exfalso
        simp only [List.length_cons] at hn
        omega
    have hbuf : buffer = [] := List.length_eq_zero.mp (by omega)
    subst hinner
    subst hbuf
    rw [specList_eq, if_neg (by omega)] at hcol
    simp [pullLoop] at hcol
  | succ m ih =>
    intro inner buffer hn hb col hcol
    rw [specList_eq, if_neg (by omega)] at hcol
    match hp : pullLoop s.fft_len buffer inner with
    | none =>
      rw [hp] at hcol
      simp at hcol
    | some p =>
      rw [hp] at hcol
      have hlen := pullLoop_length s.fft_len inner buffer p.1 p.2 hb (by rw [hp])
      rcases List.mem_cons.mp hcol with rfl | hcol2
      · apply generate_spectrogram_col_length
        simp only [List.length_take]
        omega
      · have hmeas := pullLoop_measure s.fft_len inner hf buffer p.1 p.2 (by rw [hp])
        apply ih p.2 (p.1.drop s.fft_len)
        · simp only [List.length_drop]
          omega
        · simp only [List.length_drop]
          omega
        · exact hcol2

theorem specList_ne_nil (s : Settings) (samples : List ℝ) (hf : 1 ≤ s.fft_len)
    (hs : samples ≠ []) : specList s [] samples ≠ [] := by
  rw [specList_eq, if_neg (by omega)]
  obtain ⟨p, hp⟩ := pullLoop_progress s.fft_len samples [] (Or.inr hs)
  rw [hp]
  simp

end PleepSpec

namespace PleepBuild

theorem make_log_some {F : Type} [LinearOrderedField F] (values : List F) (h : ℕ)
    (hne : ∀ i < h, logBoundary values.length h i < logBoundary values.length h (i + 1)) :
    ∃ out, make_log values h = some out ∧ out.length = h := by
  have hsome : ∀ i ∈ List.range h,
      (fun index => sliceMax values (logBoundary values.length h index)
        (logBoundary values.length h (index + 1))) i =
      some ((fun index => (sliceMax values (logBoundary values.length h index)
        (logBoundary values.length h (index + 1))).getD 0) i) := by
    intro i hi
    have hi2 := List.mem_range.mp hi
    obtain ⟨m, hm, -, -⟩ := sliceMax_spec values _ _ (hne i hi2)
      (logBoundary_le_len values.length h (i + 1) (by omega))
    simp only
    rw [hm]
    rfl
  have hmap := PleepSearch.optionMapM_eq_map _ _ _ hsome
  exact ⟨_, by rw [make_log]; exact hmap, by simp⟩

/-- The log-spectrogram settings of `pleep-build/src/lib.rs`
(`struct LogSpectrogramSettings`). -/
structure LogSpectrogramSettings where
  height : ℕ
  frequency_cutoff : ℕ
  input_sample_rate : ℕ

/-- Model of `generate_log_spectrogram` with the resulting
`LogSpectrogramIterator` collected: every spectrogram column is resized to
the cutoff bin and re-binned by `make_log`; a panic in any column is
`none`. -/
noncomputable def generate_log_spectrogram (samples : List ℝ)
    (spectrogram_settings : PleepSpec.Settings) (settings : LogSpectrogramSettings) :
    Option (List (List ℝ)) :=
  PleepSearch.optionMapM
    (logColumnStep settings.height
      (cutoffBin settings.frequency_cutoff settings.input_sample_rate
        spectrogram_settings.fft_len))
    (PleepSpec.specList spectrogram_settings [] samples)

end PleepBuild

/-- C4 (amended): for valid settings and a nonempty sample stream the
spectrogram stage emits at least one column and every spectrogram column has
length `fft_size / 2`; provided additionally that every log re-bin boundary
interval is nonempty, the log stage succeeds, emits at least one column and
every log column has length `spectrogram_height`. Without that proviso the
re-binner can panic on valid settings (see the counterexample), so the
original unconditional claim fails. -/
theorem C4_pipeline_lengths (s : PleepSpec.Settings)
    (ls : PleepBuild.LogSpectrogramSettings) (samples : List ℝ)
    (h1 : 1 ≤ s.fft_len) (h2 : 1 ≤ s.fft_overlap) (h3 : s.fft_overlap < s.fft_len)
    (h4 : 1 ≤ ls.height) (h5 : 1 ≤ ls.frequency_cutoff) (h6 : 1 ≤ ls.input_sample_rate)
    (h7 : ls.frequency_cutoff ≤ ls.input_sample_rate / 2)
    (hsamp : samples ≠ [])
    (hne : ∀ i < ls.height,
      PleepBuild.logBoundary (PleepBuild.cutoffBin ls.frequency_cutoff
        ls.input_sample_rate s.fft_len) ls.height i <
      PleepBuild.logBoundary (PleepBuild.cutoffBin ls.frequency_cutoff
        ls.input_sample_rate s.fft_len) ls.height (i + 1)) :
    (∀ col ∈ PleepSpec.specList s [] samples, col.length = s.fft_len / 2) ∧
    PleepSpec.specList s [] samples ≠ [] ∧
    ∃ logCols, PleepBuild.generate_log_spectrogram samples s ls = some logCols ∧
      logCols ≠ [] ∧ ∀ col ∈ logCols, col.length = ls.height := by
  have hcols : ∀ col ∈ PleepSpec.specList s [] samples, col.length = s.fft_len / 2 :=
    PleepSpec.specList_col_length s h1 samples.length samples [] (by simp)
      (by simpa using h1)
  have hnn := PleepSpec.specList_ne_nil s samples h1 hsamp
  refine ⟨hcols, hnn, ?_⟩
  have hstep : ∀ col ∈ PleepSpec.specList s [] samples,
      (PleepBuild.logColumnStep ls.height (PleepBuild.cutoffBin ls.frequency_cutoff
        ls.input_sample_rate s.fft_len)) col =
      some (((PleepBuild.logColumnStep ls.height (PleepBuild.cutoffBin ls.frequency_cutoff
        ls.input_sample_rate s.fft_len)) col).getD []) := by
    intro col hcol
    rw [PleepBuild.logColumnStep]
    obtain ⟨out, hout, -⟩ := PleepBuild.make_log_some
      (PleepSpec.listResize col (PleepBuild.cutoffBin ls.frequency_cutoff
        ls.input_sample_rate s.fft_len) 0) ls.height
      (by
        rw [PleepSpec.listResize_length]
        exact hne)
    rw [hout]
    rfl
  have hmap := PleepSearch.optionMapM_eq_map _ _ _ hstep
  refine ⟨_, by rw [PleepBuild.generate_log_spectrogram]; exact hmap, ?_, ?_⟩
  · simp only [ne_eq, List.map_eq_nil_iff]
    exact hnn
  · intro col hcol
    obtain ⟨c, hc, rfl⟩ := List.mem_map.mp hcol
    rw [PleepBuild.logColumnStep]
    obtain ⟨out, hout, hlen⟩ := PleepBuild.make_log_some
      (PleepSpec.listResize c (PleepBuild.cutoffBin ls.frequency_cutoff
        ls.input_sample_rate s.fft_len) 0) ls.height
      (by
        rw [PleepSpec.listResize_length]
        exact hne)
    simp only [PleepBuild.logColumnStep, hout, Option.getD_some]
    exact hlen

/-- Counterexample to C4 as stated: the valid settings `fft_size = 2`,
`fft_overlap = 1`, `spectrogram_height = 2`, `max_frequency = 1`,
`resample_rate = 2` give `cutoff_bin = 1`, and on the one-sample input `[0]`
the re-binner hits an empty boundary interval (`b(0) = b(1) = 0`), so the
pipeline panics instead of emitting a `LogColumn` of length 2. -/
theorem C4_counterexample :
    PleepBuild.generate_log_spectrogram [0] ⟨2, 1⟩ ⟨2, 1, 2⟩ = none := by
  have hb : PleepBuild.logBoundary 1 2 1 = 0 := by
    unfold PleepBuild.logBoundary
    have hs : ((10 : ℝ)) ^ (((1 : ℕ) : ℝ) / ((2 : ℕ) : ℝ)) = Real.sqrt 10 := by
      rw [Real.sqrt_eq_rpow]
      norm_num
    rw [hs, Nat.floor_eq_zero]
    have h0 : (0 : ℝ) ≤ 10 := by norm_num
    have hsq := Real.sq_sqrt h0
    have hnn := Real.sqrt_nonneg 10
    push_cast
    nlinarith
  have hpull : PleepSpec.pullLoop 2 [] [0] = some ([0, 0], []) := by
    simp [PleepSpec.pullLoop, PleepSpec.listResize]
  have hnil : PleepSpec.specList ⟨2, 1⟩ [] [] = [] := by
    rw [PleepSpec.specList_eq]
    simp [PleepSpec.pullLoop]
  have hspec : PleepSpec.specList ⟨2, 1⟩ [] [0] =
      [PleepSpec.generate_spectrogram_col ⟨2, 1⟩ [0, 0]] := by
    rw [PleepSpec.specList_eq]
    simp only [hpull]
    norm_num [hnil]
  have hcut : PleepBuild.cutoffBin 1 2 2 = 1 := by
    rw [PleepBuild.cutoffBin, PleepSpec.get_bin_for_frequency, ← Nat.cast_mul,
      Nat.floor_div_nat, Nat.floor_natCast]
  rw [PleepBuild.generate_log_spectrogram]
  have hcore : ∀ col : List ℝ, PleepBuild.logColumnStep 2 1 col = none := by
    intro col
    rw [PleepBuild.logColumnStep, PleepBuild.make_log, PleepSpec.listResize_length,
      show List.range 2 = [0, 1] from rfl]
    simp only [PleepSearch.optionMapM]
    rw [show (0 + 1 : ℕ) = 1 from rfl, PleepBuild.logBoundary_zero, hb]
    simp [PleepBuild.sliceMax]
  rw [hspec]
  show PleepSearch.optionMapM (PleepBuild.logColumnStep 2 (PleepBuild.cutoffBin 1 2 2)) _ = none
  rw [hcut]
  simp [PleepSearch.optionMapM, hcore]

/-- Witness for the amended C4 with height 1, where the single boundary
interval is the whole cutoff range. -/
theorem C4_pipeline_lengths_witness :
    (PleepBuild.generate_log_spectrogram [0] ⟨2, 1⟩ ⟨1, 1, 2⟩).isSome = true := by
  have hcut : PleepBuild.cutoffBin 1 2 2 = 1 := by
    rw [PleepBuild.cutoffBin, PleepSpec.get_bin_for_frequency, ← Nat.cast_mul,
      Nat.floor_div_nat, Nat.floor_natCast]
  obtain ⟨logCols, hl, -, -⟩ := (C4_pipeline_lengths ⟨2, 1⟩ ⟨1, 1, 2⟩ [0]
    (by norm_num) (by norm_num) (by norm_num) (by norm_num) (by norm_num) (by norm_num)
    (by norm_num) (by simp)
    (by
      intro i hi
      have hi1 : i < 1 := hi
      have hi0 : i = 0 := by omega
      subst hi0
      show PleepBuild.logBoundary (PleepBuild.cutoffBin 1 2 2) 1 0 <
        PleepBuild.logBoundary (PleepBuild.cutoffBin 1 2 2) 1 (0 + 1)
      rw [hcut, PleepBuild.logBoundary_zero, show (0 + 1 : ℕ) = 1 from rfl,
        PleepBuild.logBoundary_last 1 1 (by norm_num)]
      norm_num)).2.2
  rw [hl]
  rfl

namespace PleepAudio

/-
Model of `pleep-audio/src/lib.rs` (`ConvertingAudioIterator`). The symphonia
calls are external; they are modelled by their observable results: the probe
either fails or yields a container description, each packet either fails to
decode or yields the `f32` samples of plane 0.
-/

/-- One packet as the decoder sees it: its track id, and either the samples
of plane 0 of the decoded buffer or `none` for a decode error. -/
structure Packet where
  trackId : ℕ
  decoded : Option (List ℝ)

/-- The codec parameters of the default track that the constructor
consults: whether `registry.make` succeeds, and the declared sample rate
(`codec_params.sample_rate`, an `Option` that the code `unwrap`s). -/
structure Track where
  id : ℕ
  codecSupported : Bool
  sampleRate : Option ℕ

/-- The probed container: its default track, if any, and its packets. -/
structure Format where
  defaultTrack : Option Track
  packets : List Packet

/-- The error values `ConvertingAudioIterator::new` actually returns (both
are `symphonia` errors propagated with `?`). -/
inductive NewError
  | cannotProbe
  | codecUnsupported

/-- Result of a Rust computation that may return, fail with an error value,
or abort the process (`panic!` / `expect` / `unwrap`). -/
inductive Outcome (α : Type)
  | ok (a : α)
  | err (e : NewError)
  | aborted

/-- The iterator state after construction. -/
structure IterState where
  trackId : ℕ
  buffer : List ℝ
  packets : List Packet

/-- Model of `ConvertingAudioIterator::new`: a probe failure and an
unsupported codec are returned as `Err` values via `?`; a missing default
track hits `.expect("no default track")` and a missing declared sample rate
hits `.unwrap()`, both of which abort instead of returning an error. -/
def audioNew (probe : Option Format) : Outcome (ℕ × IterState) :=
  match probe with
  | none => .err .cannotProbe
  | some format =>
    match format.defaultTrack with
    | none => .aborted
    | some track =>
      if ¬ track.codecSupported then .err .codecUnsupported
      else
        match track.sampleRate with
        | none => .aborted
        | some rate => .ok (rate, ⟨track.id, [], format.packets⟩)

/-- Model of `ConvertingAudioIterator::next` on `(buffer, packets)`: pop the
buffer if nonempty; otherwise read packets, skipping tracks other than the
default; a decode error returns `None` (ending the stream); a decoded packet
refills the buffer from plane 0 and pops. -/
def audioNextAux (tid : ℕ) : List ℝ → List Packet → Option (ℝ × (List ℝ × List Packet))
  | s :: buf, pkts => some (s, (buf, pkts))
  | [], [] => none
  | [], p :: rest =>
    if p.trackId ≠ tid then audioNextAux tid [] rest
    else match p.decoded with
      | none => none
      | some [] => none
      | some (s :: ss) => some (s, (ss, rest))

theorem audioNextAux_measure (tid : ℕ) : ∀ pkts buffer s buf2 pkts2,
    audioNextAux tid buffer pkts = some (s, (buf2, pkts2)) →
    pkts2.length < pkts.length ∨
      (pkts2.length = pkts.length ∧ buf2.length < buffer.length) := by
  intro pkts
  induction pkts with
  | nil =>
    intro buffer s buf2 pkts2 h
    match buffer with
    | [] => exact absurd h (by simp [audioNextAux])
    | b :: buf =>
      rw [audioNextAux] at h
      cases h
      exact Or.inr ⟨rfl, by simp⟩
  | cons p rest ih =>
    intro buffer s buf2 pkts2 h
    match buffer with
    | b :: buf =>
      rw [audioNextAux] at h
      cases h
      exact Or.inr ⟨rfl, by simp⟩
    | [] =>
      rw [audioNextAux] at h
      by_cases htid : p.trackId ≠ tid
      · rw [if_pos htid] at h
        rcases ih [] s buf2 pkts2 h with h2 | ⟨h2, h3⟩
        · exact Or.inl (by simp; omega)
        · exact Or.inl (by simp; omega)
      · rw [if_neg htid] at h
        match hd : p.decoded with
        | none => rw [hd] at h; exact absurd h (by simp)
        | some [] => rw [hd] at h; exact absurd h (by simp)
        | some (s2 :: ss) =>
          rw [hd] at h
          cases h
          exact Or.inl (by simp)

/-- Model of `remaining_to_audio`'s `collect`: repeatedly call `next` until
it returns `None`, gathering the yielded samples. -/
def audioCollect (tid : ℕ) (buffer : List ℝ) (pkts : List Packet) : List ℝ :=
  match h : audioNextAux tid buffer pkts with
  | none => []
  | some (s, st) => s :: audioCollect tid st.1 st.2
termination_by (pkts.length, buffer.length)
decreasing_by
  rcases audioNextAux_measure tid pkts buffer s st.1 st.2 h with hl | ⟨he, hb⟩
  · exact Prod.Lex.left _ _ hl
  · exact he ▸ Prod.Lex.right _ hb

/-- The samples the adapter is specified to yield: the concatenated decoded
plane-0 samples of default-track packets, up to the first decode error (or
empty decoded plane, or end of stream). -/
def expectedSamples (tid : ℕ) : List Packet → List ℝ
  | [] => []
  | p :: rest =>
    if p.trackId ≠ tid then expectedSamples tid rest
    else match p.decoded with
      | none => []
      | some [] => []
      | some (s :: ss) => (s :: ss) ++ expectedSamples tid rest

theorem audioCollect_match (tid : ℕ) (buffer : List ℝ) (pkts : List Packet) :
    audioCollect tid buffer pkts = match audioNextAux tid buffer pkts with
      | none => []
      | some (s, st) => s :: audioCollect tid st.1 st.2 := by
  rw [audioCollect]
  rcases h : audioNextAux tid buffer pkts with _ | ⟨s, st⟩ <;> simp [h]

theorem audioCollect_eq (tid : ℕ) : ∀ pkts buffer,
    audioCollect tid buffer pkts = buffer ++ expectedSamples tid pkts := by
  intro pkts
  induction pkts with
  | nil =>
    intro buffer
    induction buffer with
    | nil => rw [audioCollect_match]; simp [audioNextAux, expectedSamples]
    | cons b buf ihb =>
      rw [audioCollect_match]
      simp only [audioNextAux]
      rw [ihb]
      simp [expectedSamples]
  | cons p rest ih =>
    intro buffer
    induction buffer with
    | nil =>
      rw [audioCollect_match]
      simp only [audioNextAux]
      by_cases htid : p.trackId ≠ tid
      · rw [if_pos htid]
        have h2 := audioCollect_match tid [] rest
        rw [← h2, ih []]
        simp only [expectedSamples, if_pos htid]
      · rw [if_neg htid]
        match hd : p.decoded with
        | none => simp only [expectedSamples, if_neg htid, hd]; simp
        | some [] => simp only [expectedSamples, if_neg htid, hd]; simp
        | some (s :: ss) =>
          simp only [expectedSamples, if_neg htid, hd]
          rw [ih ss]
          simp
    | cons b buf ihb =>
      rw [audioCollect_match]
      simp only [audioNextAux]
      rw [ihb]
      simp

theorem expectedSamples_stops_at_error (tid : ℕ) (bad : Packet) (more : List Packet)
    (hbad1 : bad.trackId = tid) (hbad2 : bad.decoded = none) :
    ∀ good, (∀ p ∈ good, p.trackId ≠ tid ∨ ∃ s ss, p.decoded = some (s :: ss)) →
      expectedSamples tid (good ++ bad :: more) = expectedSamples tid good := by
  intro good
  induction good with
  | nil =>
    intro _
    simp [expectedSamples, hbad1, hbad2]
  | cons g gs ih =>
    intro hgood
    rw [List.cons_append]
    rcases hgood g (by simp) with h | ⟨s, ss, h⟩
    · simp only [expectedSamples, if_pos h]
      exact ih fun p hp => hgood p (by simp [hp])
    · by_cases htid : g.trackId ≠ tid
      · simp only [expectedSamples, if_pos htid]
        exact ih fun p hp => hgood p (by simp [hp])
      · simp only [expectedSamples, if_neg htid, h]
        exact congrArg (fun l => s :: (ss ++ l)) (ih fun p hp => hgood p (by simp [hp]))

end PleepAudio

/-- C5 (amended): at construction the audio adapter returns the probe error
and the unsupported-codec error as error values, but a container with no
default track makes construction abort (`.expect("no default track")`)
rather than return `NoDefaultTrack`; likewise a missing declared sample rate
aborts. After successful construction, a decode error on any packet
terminates the sample stream normally as end-of-stream, with all previously
yielded samples retained. -/
theorem C5_construction_and_decode_errors (format : PleepAudio.Format)
    (track : PleepAudio.Track) (rate tid : ℕ)
    (good : List PleepAudio.Packet) (bad : PleepAudio.Packet)
    (more : List PleepAudio.Packet)
    (hdef : format.defaultTrack = some track)
    (hcodec : track.codecSupported = true)
    (hrate : track.sampleRate = some rate)
    (hgood : ∀ p ∈ good, p.trackId ≠ tid ∨ ∃ s ss, p.decoded = some (s :: ss))
    (hbad1 : bad.trackId = tid) (hbad2 : bad.decoded = none) :
    PleepAudio.audioNew none = .err .cannotProbe ∧
    (∀ f : PleepAudio.Format, f.defaultTrack = none →
      PleepAudio.audioNew (some f) = .aborted) ∧
    (∀ f : PleepAudio.Format, ∀ t, f.defaultTrack = some t →
      t.codecSupported = false →
      PleepAudio.audioNew (some f) = .err .codecUnsupported) ∧
    PleepAudio.audioNew (some format) = .ok (rate, ⟨track.id, [], format.packets⟩) ∧
    PleepAudio.audioCollect tid [] (good ++ bad :: more) =
      PleepAudio.expectedSamples tid good := by
  refine ⟨rfl, ?_, ?_, ?_, ?_⟩
  · intro f hf
    simp [PleepAudio.audioNew, hf]
  · intro f t hf ht
    simp [PleepAudio.audioNew, hf, ht]
  · simp [PleepAudio.audioNew, hdef, hcodec, hrate]
  · rw [PleepAudio.audioCollect_eq, List.nil_append,
      PleepAudio.expectedSamples_stops_at_error tid bad more hbad1 hbad2 good hgood]

/-- Witness for C5: a two-good-packet container whose third packet fails to
decode; construction succeeds and the stream retains the first packet's
samples. -/
theorem C5_construction_and_decode_errors_witness :
    PleepAudio.audioNew (some ⟨some ⟨7, true, some 44100⟩, [⟨7, some [1, 2]⟩]⟩) =
      PleepAudio.Outcome.ok (44100, ⟨7, [], [⟨7, some [1, 2]⟩]⟩) ∧
    PleepAudio.audioCollect 7 [] [⟨7, some [1, 2]⟩, ⟨7, none⟩, ⟨7, some [3]⟩] =
      PleepAudio.expectedSamples 7 [⟨7, some [1, 2]⟩] := by
  have h := C5_construction_and_decode_errors
    ⟨some ⟨7, true, some 44100⟩, [⟨7, some [1, 2]⟩]⟩ ⟨7, true, some 44100⟩ 44100 7
    [⟨7, some [1, 2]⟩] ⟨7, none⟩ [⟨7, some [3]⟩] rfl rfl rfl
    (by
      intro p hp
      rw [List.mem_singleton.mp hp]
      exact Or.inr ⟨1, [2], rfl⟩)
    rfl rfl
  exact ⟨h.2.2.2.1, h.2.2.2.2⟩

/-- Counterexample to C5 as stated: on a container with no default track,
construction aborts (the `expect` panic) — it does not return the
`NoDefaultTrack` error value, nor any error value. -/
theorem C5_counterexample :
    PleepAudio.audioNew (some ⟨none, []⟩) = PleepAudio.Outcome.aborted ∧
    PleepAudio.audioNew (some ⟨none, []⟩) ≠
      PleepAudio.Outcome.err PleepAudio.NewError.cannotProbe ∧
    PleepAudio.audioNew (some ⟨none, []⟩) ≠
      PleepAudio.Outcome.err PleepAudio.NewError.codecUnsupported := by
  refine ⟨rfl, ?_, ?_⟩ <;> simp [PleepAudio.audioNew]

namespace PleepSearch

/-- The searcher options of `pleep-search/src/main.rs` used by the matching
kernel. -/
structure SearchOptions where
  max_error : ℝ
  n_results : ℕ
  extra_offsets : ℕ
  segment_trim_size : ℕ
  segment_trim_step : ℕ
  min_vectors : ℕ
  spectrogram_padding : ℕ

/-- The trim offsets `(0..=segment_trim_size).step_by(segment_trim_step)`;
`step_by(0)` panics. -/
def stepRange (trim_size step : ℕ) : Option (List ℕ) :=
  if step = 0 then none
  else some ((List.range (trim_size / step + 1)).map fun k => k * step)

/-- Model of `ResamplingChunksIterator`, collected: gather up to
`chunk_size` input samples (the loop always takes at least one), zero-pad
the chunk to `chunk_size`, and feed it to the external `rubato` resampler,
modelled by the opaque per-chunk function `proc` (the spec treats the
resampler as a primitive with deterministic output). -/
noncomputable def resampleChunks (proc : List ℝ → List ℝ) (chunk_size : ℕ) :
    (samples : List ℝ) → List (List ℝ)
  | [] => []
  | s :: rest =>
    proc (PleepSpec.listResize ((s :: rest).take (max chunk_size 1)) chunk_size 0) ::
      resampleChunks proc chunk_size ((s :: rest).drop (max chunk_size 1))
termination_by samples => samples.length
decreasing_by
  simp only [List.length_drop, List.length_cons]
  omega

theorem resampleChunks_nil (proc : List ℝ → List ℝ) (chunk_size : ℕ) :
    resampleChunks proc chunk_size [] = [] := by
  rw [resampleChunks]

theorem resampleChunks_cons (proc : List ℝ → List ℝ) (chunk_size : ℕ)
    (s : ℝ) (rest : List ℝ) :
    resampleChunks proc chunk_size (s :: rest) =
      proc (PleepSpec.listResize ((s :: rest).take (max chunk_size 1)) chunk_size 0) ::
        resampleChunks proc chunk_size ((s :: rest).drop (max chunk_size 1)) := by
  rw [resampleChunks]

/-- Model of the search `main` from the loaded query samples on: build the
trim set and the offset slices, run resample → spectrogram → log re-bin →
`get_error` for every `(trim, slice)` task, then merge, filter, sort and
truncate. `none` marks any panic along the way. -/
noncomputable def searchRun (proc : List ℝ → List ℝ) (chunk_size : ℕ)
    (s : PleepSpec.Settings) (ls : PleepBuild.LogSpectrogramSettings)
    (segments : List (List (List ℝ))) (sample_rate : ℕ) (samples : List ℝ)
    (opts : SearchOptions) : Option (List (ℕ × WithTop ℝ)) :=
  (stepRange opts.segment_trim_size opts.segment_trim_step).bind fun trims =>
  (computeSlices samples sample_rate s.fft_len ls.input_sample_rate
    opts.extra_offsets).bind fun slices =>
  (optionMapM (fun pre =>
      optionMapM (fun sl : ℕ × List ℝ =>
          (PleepBuild.generate_log_spectrogram
            ((resampleChunks proc chunk_size sl.2).flatten) s ls).bind fun spectrogram =>
          getErrorScores spectrogram opts.spectrogram_padding opts.min_vectors
            opts.max_error (segments.map fun seg => seg.drop (min pre seg.length)))
        slices)
    trims).map fun taskResults =>
  searchReport opts.n_results segments.length taskResults.flatten

theorem getErrorScores_long_segments {F : Type} [LinearOrderedField F] (c0 : List F)
    (rest : List (List F)) (padding skip : ℕ) (maxE : F) (segs : List (List (List F)))
    (hlong : ∀ seg ∈ segs, (c0 :: rest).length + 2 * padding < seg.length) :
    getErrorScores (c0 :: rest) padding skip maxE segs = some [] := by
  have hfil : segs.enum.filter
      (fun p => p.2.length ≤ (paddedSpectrogram (c0 :: rest) padding c0).length) = [] := by
    rw [List.filter_eq_nil_iff]
    intro p hp
    have hmem := List.mem_enum_iff_getElem?.mp hp
    have hseg : p.2 ∈ segs := by
      obtain ⟨h, heq⟩ := List.getElem?_eq_some_iff.mp hmem
      rw [← heq]
      exact List.getElem_mem h
    have hl := hlong p.2 hseg
    rw [paddedSpectrogram_length]
    simp only [decide_eq_true_eq, not_le]
    omega
  simp only [getErrorScores, hfil, List.filter_nil, optionMapM, Option.map_some]
  rfl

theorem searchReport_nil {F : Type} [LinearOrderedField F] (n nseg : ℕ)
    (tasks : List (List (ℕ × WithTop F))) (h : ∀ t ∈ tasks, t = []) :
    searchReport n nseg tasks = [] := by
  have hflat : tasks.flatten = [] := List.flatten_eq_nil_iff.mpr h
  have hmerge : mergeErrors nseg tasks = List.replicate nseg ⊤ := by
    rw [mergeErrors_eq_flatten, hflat]
    rfl
  have hfilter : (List.replicate nseg (⊤ : WithTop F)).enum.filter
      (fun p => ¬ p.2 = ⊤) = [] := by
    rw [List.filter_eq_nil_iff]
    intro p hp
    have hmem := List.mem_enum_iff_getElem?.mp hp
    rw [List.getElem?_replicate] at hmem
    by_cases hlt : p.1 < nseg
    · rw [if_pos hlt] at hmem
      have : p.2 = ⊤ := (Option.some.injEq .. ▸ hmem).symm
      simp [this]
    · rw [if_neg hlt] at hmem
      exact absurd hmem (by simp)
  rw [searchReport, hmerge, hfilter]
  simp

end PleepSearch

/-- C9 (amended): for a query shorter than the smallest segment the search
completes normally with an empty result set, provided the trim step is
nonzero, every computed offset is within the query (otherwise the slice
panics, see C10), and each slice yields a nonempty log spectrogram whose
padded length is below every trimmed segment length. Without those provisos
a short query can panic instead (see the counterexample, where an offset
exceeds the query length). -/
theorem C9_short_query_empty_result (proc : List ℝ → List ℝ) (chunk_size : ℕ)
    (s : PleepSpec.Settings) (ls : PleepBuild.LogSpectrogramSettings)
    (segments : List (List (List ℝ))) (sample_rate : ℕ) (samples : List ℝ)
    (opts : PleepSearch.SearchOptions) (trims : List ℕ)
    (slices : List (ℕ × List ℝ)) (spOf : ℕ × List ℝ → List (List ℝ))
    (hstep : PleepSearch.stepRange opts.segment_trim_size opts.segment_trim_step
      = some trims)
    (hslices : PleepSearch.computeSlices samples sample_rate s.fft_len
      ls.input_sample_rate opts.extra_offsets = some slices)
    (hsp : ∀ sl ∈ slices, PleepBuild.generate_log_spectrogram
      ((PleepSearch.resampleChunks proc chunk_size sl.2).flatten) s ls = some (spOf sl))
    (hne : ∀ sl ∈ slices, spOf sl ≠ [])
    (hlong : ∀ sl ∈ slices, ∀ pre ∈ trims, ∀ seg ∈ segments,
      (spOf sl).length + 2 * opts.spectrogram_padding <
        (seg.drop (min pre seg.length)).length) :
    PleepSearch.searchRun proc chunk_size s ls segments sample_rate samples opts
      = some [] := by
  rw [PleepSearch.searchRun, hstep, Option.some_bind, hslices, Option.some_bind]
  have hinner : ∀ pre ∈ trims,
      PleepSearch.optionMapM (fun sl : ℕ × List ℝ =>
        (PleepBuild.generate_log_spectrogram
          ((PleepSearch.resampleChunks proc chunk_size sl.2).flatten) s ls).bind
          fun spectrogram =>
        PleepSearch.getErrorScores spectrogram opts.spectrogram_padding opts.min_vectors
          opts.max_error (segments.map fun seg => seg.drop (min pre seg.length)))
        slices = some (slices.map fun _ => []) := by
    intro pre hpre
    have heach : ∀ sl ∈ slices,
        (fun sl : ℕ × List ℝ =>
          (PleepBuild.generate_log_spectrogram
            ((PleepSearch.resampleChunks proc chunk_size sl.2).flatten) s ls).bind
            fun spectrogram =>
          PleepSearch.getErrorScores spectrogram opts.spectrogram_padding
            opts.min_vectors opts.max_error
            (segments.map fun seg => seg.drop (min pre seg.length))) sl =
        some ((fun _ : ℕ × List ℝ => ([] : List (ℕ × WithTop ℝ))) sl) := by
      intro sl hsl
      simp only
      rw [hsp sl hsl, Option.some_bind]
      obtain ⟨c0, rest, hsp2⟩ : ∃ c0 rest, spOf sl = c0 :: rest := by
        cases hspOf : spOf sl with
        | nil => exact absurd hspOf (hne sl hsl)
        | cons a l => exact ⟨a, l, rfl⟩
      rw [hsp2]
      apply PleepSearch.getErrorScores_long_segments
      intro seg hseg
      obtain ⟨seg0, hseg0, rfl⟩ := List.mem_map.mp hseg
      have := hlong sl hsl pre hpre seg0 hseg0
      rw [hsp2] at this
      exact this
    exact PleepSearch.optionMapM_eq_map _ _ _ heach
  have houter := PleepSearch.optionMapM_eq_map _
    (fun _ : ℕ => slices.map fun _ : ℕ × List ℝ => ([] : List (ℕ × WithTop ℝ))) trims hinner
  rw [houter, Option.map_some']
  congr 1
  apply PleepSearch.searchReport_nil
  intro t ht
  obtain ⟨l, hl, hlt⟩ := List.mem_flatten.mp ht
  obtain ⟨pre, hpre, rfl⟩ := List.mem_map.mp hl
  obtain ⟨sl, hsl, rfl⟩ := List.mem_map.mp hlt
  rfl

/-- Counterexample to C9 as stated: with an empty query (certainly shorter
than the smallest segment) and one extra offset, the computed offset 2
exceeds the query length, so `samples[offset..]` panics and the search
aborts instead of returning an empty result set. -/
theorem C9_counterexample :
    PleepSearch.searchRun id 1 ⟨2, 1⟩ ⟨1, 1, 2⟩ [[[0], [0], [0]]] 2 []
      ⟨10, 1, 1, 0, 1, 1, 0⟩ = none := by
  have h1 : PleepSearch.stepRange (0 : ℕ) 1 = some [0] := by
    rw [PleepSearch.stepRange, if_neg (by norm_num)]
    rfl
  have h2 : PleepSearch.computeSlices ([] : List ℝ) 2 2 2 1 = none := by
    rw [PleepSearch.computeSlices, PleepSearch.computeOffsets, if_neg (by norm_num),
      Option.some_bind, show List.range 2 = [0, 1] from rfl]
    simp only [List.map_cons, List.map_nil, PleepSearch.optionMapM]
    norm_num
  simp only [PleepSearch.searchRun, h1, h2, Option.some_bind, Option.none_bind]

/-- Witness for the amended C9: a three-sample query against a five-vector
segment, with `fft_len = 1` so every transform value is explicit; both
offset slices yield a four-column log spectrogram, shorter than the
segment, and the search returns an empty result set. -/
theorem C9_short_query_empty_result_witness :
    PleepSearch.searchRun id 4 ⟨1, 0⟩ ⟨1, 2, 2⟩ [[[0], [0], [0], [0], [0]]] 2
      [0, 0, 0] ⟨10, 1, 1, 0, 1, 1, 0⟩ = some [] := by
  have h_step : PleepSearch.stepRange (0 : ℕ) 1 = some [0] := by
    rw [PleepSearch.stepRange, if_neg (by norm_num)]
    rfl
  have h_slices : PleepSearch.computeSlices ([0, 0, 0] : List ℝ) 2 1 2 1 =
      some [(0, [0, 0, 0]), (1, [0, 0])] := by
    rw [PleepSearch.computeSlices, PleepSearch.computeOffsets, if_neg (by norm_num),
      Option.some_bind, show List.range 2 = [0, 1] from rfl]
    simp only [List.map_cons, List.map_nil, PleepSearch.optionMapM]
    norm_num
  have h_chunks3 : PleepSearch.resampleChunks id 4 [0, 0, 0] = [[0, 0, 0, 0]] := by
    rw [PleepSearch.resampleChunks_cons]
    norm_num [PleepSpec.listResize, PleepSearch.resampleChunks_nil]
  have h_chunks2 : PleepSearch.resampleChunks id 4 [0, 0] = [[0, 0, 0, 0]] := by
    rw [PleepSearch.resampleChunks_cons]
    norm_num [PleepSpec.listResize, PleepSearch.resampleChunks_nil,
      List.replicate_succ]
  have hcut : PleepBuild.cutoffBin 2 2 1 = 1 := by
    rw [PleepBuild.cutoffBin, PleepSpec.get_bin_for_frequency, ← Nat.cast_mul,
      Nat.floor_div_nat, Nat.floor_natCast]
  have hcol : ∀ x : ℝ, PleepSpec.generate_spectrogram_col ⟨1, 0⟩ [x] = [] := by
    intro x
    simp [PleepSpec.generate_spectrogram_col]
  have hpull : ∀ (x : ℝ) (rest : List ℝ),
      PleepSpec.pullLoop 1 [] (x :: rest) = some ([x], rest) := by
    intro x rest
    rw [PleepSpec.pullLoop, if_pos (by norm_num)]
    simp
  have hsl : ∀ (x : ℝ) (rest : List ℝ),
      PleepSpec.specList ⟨1, 0⟩ [] (x :: rest) = [] :: PleepSpec.specList ⟨1, 0⟩ [] rest := by
    intro x rest
    rw [PleepSpec.specList_eq, if_neg (by norm_num), hpull]
    simp [hcol]
  have hnil : PleepSpec.specList ⟨1, 0⟩ [] [] = [] := by
    rw [PleepSpec.specList_eq]
    simp [PleepSpec.pullLoop]
  have hlstep : PleepBuild.logColumnStep 1 1 ([] : List ℝ) = some [0] := by
    rw [PleepBuild.logColumnStep, show PleepSpec.listResize ([] : List ℝ) 1 0 = [0] from rfl,
      PleepBuild.make_log, show ([0] : List ℝ).length = 1 from rfl,
      show List.range 1 = [0] from rfl]
    simp only [PleepSearch.optionMapM]
    rw [PleepBuild.logBoundary_zero, show (0 + 1 : ℕ) = 1 from rfl,
      PleepBuild.logBoundary_last 1 1 (by norm_num)]
    simp [PleepBuild.sliceMax]
  have h_gen : PleepBuild.generate_log_spectrogram [0, 0, 0, 0] ⟨1, 0⟩ ⟨1, 2, 2⟩ =
      some [[0], [0], [0], [0]] := by
    rw [PleepBuild.generate_log_spectrogram]
    show PleepSearch.optionMapM (PleepBuild.logColumnStep 1 (PleepBuild.cutoffBin 2 2 1))
      (PleepSpec.specList ⟨1, 0⟩ [] [0, 0, 0, 0]) = some [[0], [0], [0], [0]]
    rw [hcut, hsl, hsl, hsl, hsl, hnil]
    simp [PleepSearch.optionMapM, hlstep]
  exact C9_short_query_empty_result id 4 ⟨1, 0⟩ ⟨1, 2, 2⟩ [[[0], [0], [0], [0], [0]]] 2
    [0, 0, 0] ⟨10, 1, 1, 0, 1, 1, 0⟩ [0] [(0, [0, 0, 0]), (1, [0, 0])]
    (fun _ => [[0], [0], [0], [0]]) h_step h_slices
    (by
      intro sl hsl2
      rcases List.mem_cons.mp hsl2 with rfl | hsl3
      · show PleepBuild.generate_log_spectrogram
          ((PleepSearch.resampleChunks id 4 [0, 0, 0]).flatten) ⟨1, 0⟩ ⟨1, 2, 2⟩ =
          some [[0], [0], [0], [0]]
        rw [h_chunks3]
        simpa using h_gen
      · rw [List.mem_singleton.mp hsl3]
        show PleepBuild.generate_log_spectrogram
          ((PleepSearch.resampleChunks id 4 [0, 0]).flatten) ⟨1, 0⟩ ⟨1, 2, 2⟩ =
          some [[0], [0], [0], [0]]
        rw [h_chunks2]
        simpa using h_gen)
    (by
      intro sl hsl2
      simp)
    (by
      intro sl hsl2 pre hpre seg hseg
      rw [List.mem_singleton.mp hpre] at *
      rw [List.mem_singleton.mp hseg]
      norm_num)
